import Mathlib

/-!
A shallow embedding of mypy's dataclasses plugin
(`mypy/plugins/dataclasses.py`), together with theorems settling the
specification claims about it.

Modelling conventions:
* Python objects become Lean structures; the mutable symbol table of a class
  (`TypeInfo.names`, a Python `dict`) becomes an insertion-ordered association
  list with unique keys maintained by construction.
* Stateful code becomes explicit state passing; Python exceptions that the
  plugin can actually raise (failed `assert`s, `KeyError` from `del` /
  `TypeInfo.__getitem__`, a failed tuple destructuring) are modelled by
  `Option` / dedicated `crash` constructors.
* Source positions of AST nodes other than assignment statements and the
  class itself are not tracked; a diagnostic anchored on such a node gets
  position (0, 0).  Type expressions are modelled only as deeply as the
  plugin inspects them.
-/

set_option maxRecDepth 8000

namespace Dataclasses

/-- Model of the slice of `mypy.types` the plugin inspects: `Instance`s are
identified by the fullname of their `TypeInfo`; `dataclasses.InitVar`
instances additionally carry their single type argument (the plugin reads
`node_type.args[0]`); `TypeVarType` carries the fullname of its def. -/
inductive MType where
  | prim (name : String)
  | initVar (arg : MType)
  | tyVar (fullname : String)
  | noneTy
deriving DecidableEq, Repr

/-- Model of `mypy.nodes.Var`: the fields the plugin reads or writes. -/
structure MVar where
  name : String
  type : Option MType
  is_classvar : Bool
  is_property : Bool
deriving DecidableEq, Repr

/-- Model of `mypy.nodes.Argument`: `variable` (a `Var`) and
`type_annotation` always coincide in the code generated by this plugin, so a
single `varType` field stands for both; `opt` is true for kind `ARG_OPT` and
false for `ARG_POS`. -/
structure MArgument where
  varName : String
  varType : Option MType
  opt : Bool
deriving DecidableEq, Repr

/-- Model of a `FuncDef` as far as the plugin observes it: its name, its
arguments (without the implicit `self` argument, which can never collide with
a field name) and its return type. -/
structure MFuncDef where
  name : String
  arguments : List MArgument
  retType : MType
deriving DecidableEq, Repr

/-- Model of the `SymbolNode`s that can appear in a symbol table entry. -/
inductive MNode where
  | placeholder
  | var (v : MVar)
  | funcDef (f : MFuncDef)
  | tvarExpr (name : String) (fullname : String)
deriving DecidableEq, Repr

/-- Model of `mypy.nodes.SymbolTableNode` (kind is always `MDEF` here). -/
structure STNode where
  node : MNode
  plugin_generated : Bool
deriving DecidableEq, Repr

/-- `SymbolTableNode.type`: the type of the underlying node, or `none` when
the node has no type yet (placeholders, type-variable expressions). -/
def stnType : STNode → Option MType
  | ⟨MNode.var v, _⟩ => v.type
  | ⟨MNode.funcDef _, _⟩ => some (MType.prim "builtins.function")
  | ⟨MNode.tvarExpr _ _, _⟩ => none
  | ⟨MNode.placeholder, _⟩ => none

/-- Model of the expressions the plugin inspects on the right-hand side of a
field declaration: the empty `TempNode` placeholder, a call expression whose
callee may be a `RefExpr` with a fullname (`none` models a callee that is not
a `RefExpr`), boolean literals (all that `ctx.api.parse_bool` recognises in
this model), and anything else. -/
inductive MExpr where
  | tempNode
  | boolLit (b : Bool)
  | call (callee : Option String) (args : List (Option String × MExpr))
  | otherExpr

/-- Left-hand side of an assignment: a `NameExpr` (with a flag recording
whether its `node` field is currently bound) or some other lvalue. -/
inductive LValue where
  | nameExpr (name : String) (nodeBound : Bool)
  | otherLValue

/-- Model of `mypy.nodes.AssignmentStmt`; `new_style` models the
`new_syntax` attribute of the source (true for `a: T` / `a: T = e`). -/
structure AssignData where
  new_style : Bool
  lvalue : LValue
  rvalue : MExpr
  unanalyzed_type : Bool
  line : Nat
  column : Nat

/-- A statement of a class body: an assignment or anything else. -/
inductive Stmt where
  | assignment (a : AssignData)
  | otherStmt

/-- `DataclassAttribute` from the source.  `serialize` /
`DataclassAttribute.deserialize` are mutually inverse on exactly these six
fields, so metadata stores these records directly. -/
structure DataclassAttribute where
  name : String
  is_in_init : Bool
  is_init_var : Bool
  has_default : Bool
  line : Nat
  column : Nat
deriving DecidableEq, Repr

/-- The per-class persisted record `info.metadata['dataclass']`. -/
structure DataclassMeta where
  attributes : List (String × DataclassAttribute)
  frozen : Bool
deriving DecidableEq, Repr

/-- An ancestor entry of `cls.info.mro[1:-1]`: its fullname, its symbol
table, and its `dataclass` metadata if it has been processed. -/
structure AncestorInfo where
  fullname : String
  names : List (String × STNode)
  metadata : Option DataclassMeta
deriving DecidableEq, Repr

/-- The state of the class being transformed: its body statements, its own
symbol table, `mro[1:-1]` (`object` is excluded and treated as contributing
no members), its fullname, its current `dataclass` metadata, and the source
position of the `ClassDef` (used as diagnostic context by `ctx.api.fail`). -/
structure ClassState where
  body : List Stmt
  names : List (String × STNode)
  mroTail : List AncestorInfo
  fullname : String
  metadata : Option DataclassMeta
  clsLine : Nat
  clsCol : Nat

/-- A diagnostic reported through `ctx.api.fail`. -/
structure Diagnostic where
  message : String
  line : Nat
  column : Nat
deriving DecidableEq, Repr

/-- The boolean decorator arguments, as extracted by
`_get_decorator_bool_argument` with the defaults of the source
(`init=True, eq=True, order=False, frozen=False`). -/
structure DecoratorArgs where
  init : Bool
  eq : Bool
  order : Bool
  frozen : Bool
deriving DecidableEq, Repr

/-- `SELF_TVAR_NAME` from the source. -/
def SELF_TVAR_NAME : String := "_DT"

/-! ### Association-list primitives (Python `dict` with insertion order) -/

/-- `d.get(k)`: first binding of `k`, if any (keys are unique by
construction, so "first" is "the" binding). -/
def assocGet {α : Type} : List (String × α) → String → Option α
  | [], _ => none
  | (k', v) :: t, k => if k' = k then some v else assocGet t k

/-- `d[k] = v`: replace in place if the key is present, else append. -/
def assocSet {α : Type} : List (String × α) → String → α → List (String × α)
  | [], k, v => [(k, v)]
  | (k', v') :: t, k, v =>
      if k' = k then (k, v) :: t else (k', v') :: assocSet t k v

/-- `del d[k]`: `none` models the `KeyError` raised when `k` is absent. -/
def assocDelete {α : Type} : List (String × α) → String → Option (List (String × α))
  | [], _ => none
  | (k', v') :: t, k =>
      if k' = k then some t else
        match assocDelete t k with
        | none => none
        | some t' => some ((k', v') :: t')

/-! ### `_collect_field_args` -/

/-- The loop of `_collect_field_args`: `zip(expr.arg_names, expr.args)`
folded into a dict; `none` models the failure of `assert name is not None`
on a positional argument. -/
def fieldArgsLoop : List (Option String × MExpr) → List (String × MExpr) →
    Option (List (String × MExpr))
  | [], acc => some acc
  | (none, _) :: _, _ => none
  | (some n, e) :: t, acc => fieldArgsLoop t (assocSet acc n e)

/-- `_collect_field_args` from the source: recognises a call to
`dataclasses.field` and collects its keyword arguments; `none` models the
assertion failure on a positional argument. -/
def _collect_field_args (e : MExpr) : Option (Bool × List (String × MExpr)) :=
  match e with
  | MExpr.call (some c) args =>
      if c = "dataclasses.field" then
        match fieldArgsLoop args [] with
        | none => none
        | some d => some (true, d)
      else some (false, [])
  | _ => some (false, [])

/-- `ctx.api.parse_bool` (external semantic-analyzer API): recognises the
boolean literals, returns `none` on anything else. -/
def parse_bool : MExpr → Option Bool
  | MExpr.boolLit b => some b
  | _ => none

/-! ### MRO lookups -/

/-- Lookup in the symbol tables of `mro[1:-1]`, nearest ancestor first. -/
def ancGet : List AncestorInfo → String → Option STNode
  | [], _ => none
  | a :: t, n =>
      match assocGet a.names n with
      | some v => some v
      | none => ancGet t n

/-- `TypeInfo.get`: search the class's own symbol table, then the MRO. -/
def infoGetN (names : List (String × STNode)) (mro : List AncestorInfo)
    (n : String) : Option STNode :=
  match assocGet names n with
  | some v => some v
  | none => ancGet mro n

/-- `TypeInfo.get_method`: the first `SymbolTableNode` found along the MRO,
if its node is a `FuncDef` (the search does not continue past a non-`FuncDef`
hit, matching the source). -/
def get_method (names : List (String × STNode)) (mro : List AncestorInfo)
    (n : String) : Option MFuncDef :=
  match infoGetN names mro n with
  | some ⟨MNode.funcDef f, _⟩ => some f
  | _ => none

/-! ### `collect_attributes`: scanning the class body -/

/-- The accumulator of `collect_attributes`: the (mutated) symbol table,
the attribute list built so far (`attrs`, later `all_attrs`), and the
`known_attrs` set (modelled as a duplicate-free list). -/
structure ScanSt where
  names : List (String × STNode)
  attrs : List DataclassAttribute
  known : List String
deriving Repr

/-- Add a name to the `known_attrs` set. -/
def insertKnown (n : String) (l : List String) : List String :=
  if n ∈ l then l else l ++ [n]

/-- Result of the body scan: `crash` models a failed assertion
(`assert isinstance(node, Var)`, or the assertion inside
`_collect_field_args`); `notReady` models the `return None` taken when a
`PlaceholderNode` is encountered (the symbol table may already have been
mutated by `InitVar` stripping). -/
inductive ScanRes where
  | crash
  | notReady (st : ScanSt)
  | ok (st : ScanSt)

/-- Result of processing a single body statement. -/
inductive StepRes where
  | crash
  | notReady (st : ScanSt)
  | next (st : ScanSt)

/-- Whether a declaration is an `x: InitVar[...]` declaration. -/
def isInitVarType (v : MVar) : Bool :=
  match v.type with
  | some (MType.initVar _) => true
  | _ => false

/-- The symbol table after the in-place `InitVar` strip
`node.type = node_type.args[0]` (the mutated `Var` is the one stored in the
symbol table); identity for a non-`InitVar` declaration. -/
def stripNames (lname : String) (stn : STNode) (v : MVar)
    (names : List (String × STNode)) : List (String × STNode) :=
  match v.type with
  | some (MType.initVar targ) =>
      assocSet names lname
        ⟨MNode.var ⟨v.name, some targ, v.is_classvar, v.is_property⟩,
         stn.plugin_generated⟩
  | _ => names

/-- The `is_in_init` flag parsed from the field-specification arguments:
`bool(ctx.api.parse_bool(...))` maps an unparsable expression to `False`. -/
def inInitFlag (fargs : List (String × MExpr)) : Bool :=
  match assocGet fargs "init" with
  | none => true
  | some e => (parse_bool e).getD false

/-- The `has_default` flag: for a `field(...)` call, presence of `default` or
`default_factory`; otherwise any right-hand side that is not a `TempNode`. -/
def hasDefaultFlag (hfc : Bool) (fargs : List (String × MExpr))
    (rv : MExpr) : Bool :=
  if hfc then
    (assocGet fargs "default").isSome || (assocGet fargs "default_factory").isSome
  else
    match rv with
    | MExpr.tempNode => false
    | _ => true

/-- One iteration of the first loop of `collect_attributes` on one body
statement: skip paths leave the state unchanged; a collected attribute strips
an `InitVar` wrapper in place, parses the field-specification call, and
appends a `DataclassAttribute`. -/
def scanStep (stm : Stmt) (st : ScanSt) : StepRes :=
  match stm with
  | Stmt.otherStmt => StepRes.next st
  | Stmt.assignment a =>
      if ¬ a.new_style then StepRes.next st else
      match a.lvalue with
      | LValue.otherLValue => StepRes.next st
      | LValue.nameExpr lname _ =>
          match assocGet st.names lname with
          | none => StepRes.next st
          | some stn =>
              match stn.node with
              | MNode.placeholder => StepRes.notReady st
              | MNode.var v =>
                  if v.is_classvar then StepRes.next st else
                  match _collect_field_args a.rvalue with
                  | none => StepRes.crash
                  | some (hfc, fargs) =>
                      StepRes.next
                        ⟨stripNames lname stn v st.names,
                         st.attrs ++
                           [⟨lname, inInitFlag fargs, isInitVarType v,
                             hasDefaultFlag hfc fargs a.rvalue, a.line, a.column⟩],
                         insertKnown lname st.known⟩
              | _ => StepRes.crash

/-- The first loop of `collect_attributes`: walk the class body. -/
def scanBody : List Stmt → ScanSt → ScanRes
  | [], st => ScanRes.ok st
  | stm :: t, st =>
      match scanStep stm st with
      | StepRes.crash => ScanRes.crash
      | StepRes.notReady st' => ScanRes.notReady st'
      | StepRes.next st' => scanBody t st'

/-! ### `collect_attributes`: merging ancestor attributes -/

/-- Remove the first occurrence of an attribute (Python `list.remove`). -/
def eraseFirst : List DataclassAttribute → DataclassAttribute →
    List DataclassAttribute
  | [], _ => []
  | b :: t, a => if b = a then t else b :: eraseFirst t a

/-- Re-inject an inherited `InitVar` into the subclass's symbol table by
looking it up among the parameters of the already-synthesized `__init__`
(the loop assigns once per matching parameter; a fresh `Var` with the
parameter's name and type stands for the aliased `arg.variable`). -/
def injectInitVar (initm : Option MFuncDef) (attrName : String)
    (names : List (String × STNode)) : List (String × STNode) :=
  match initm with
  | none => names
  | some f =>
      f.arguments.foldl
        (fun ns arg =>
          if arg.varName = attrName then
            assocSet ns attrName
              ⟨MNode.var ⟨arg.varName, arg.varType, false, false⟩, false⟩
          else ns)
        names

/-- The symbol-table update for a first-seen inherited attribute: `InitVar`
re-injection for init-only attributes, identity otherwise. -/
def mergeNames (initm : Option MFuncDef) (data : DataclassAttribute)
    (names : List (String × STNode)) : List (String × STNode) :=
  if data.is_init_var then injectInitVar initm data.name names else names

/-- The inner loop over one ancestor's stored attributes: first-seen names
are deserialized (with `InitVar` re-injection), already-seen names are moved
out of `all_attrs` into this ancestor's block (keeping the more-derived
descriptor); `none` models the failed `(attr,) = [...]` destructuring. -/
def mergeAncAttrs (initm : Option MFuncDef) :
    List (String × DataclassAttribute) → ScanSt → List DataclassAttribute →
      Option ScanSt
  | [], st, superAttrs => some ⟨st.names, superAttrs ++ st.attrs, st.known⟩
  | (n, data) :: rest, st, superAttrs =>
      if n ∈ st.known then
        match st.attrs.filter (fun a => a.name = n) with
        | [a] =>
            mergeAncAttrs initm rest ⟨st.names, eraseFirst st.attrs a, st.known⟩
              (superAttrs ++ [a])
        | _ => none
      else
        mergeAncAttrs initm rest
          ⟨mergeNames initm data st.names, st.attrs, insertKnown n st.known⟩
          (superAttrs ++ [data])

/-- The outer loop over `cls.info.mro[1:-1]`: ancestors without `dataclass`
metadata are skipped (`add_plugin_dependency` has no modelled effect). -/
def mergeMRO (initm : Option MFuncDef) : List AncestorInfo → ScanSt →
    Option ScanSt
  | [], st => some st
  | anc :: rest, st =>
      match anc.metadata with
      | none => mergeMRO initm rest st
      | some md =>
          match mergeAncAttrs initm md.attributes st [] with
          | none => none
          | some st' => mergeMRO initm rest st'

/-! ### `collect_attributes`: the default-ordering check -/

/-- The diagnostic message of the default-ordering check. -/
def orderingViolationMsg : String :=
  "Attributes without a default cannot follow attributes with one"

/-- The final loop of `collect_attributes` (`found_default` accumulator):
emit one diagnostic per in-init attribute without a default that follows an
in-init attribute with one. -/
def checkDO : Bool → List DataclassAttribute → List Diagnostic
  | _, [] => []
  | fd, a :: t =>
      (if fd && (a.is_in_init && !a.has_default) then
        [⟨orderingViolationMsg, a.line, a.column⟩]
      else []) ++ checkDO (fd || (a.has_default && a.is_in_init)) t

/-- The default-ordering check as run by `collect_attributes`. -/
def checkDefaultOrdering (attrs : List DataclassAttribute) : List Diagnostic :=
  checkDO false attrs

/-! ### `collect_attributes` assembled -/

/-- Result of `collect_attributes`: `crash` for a failed assertion or
destructuring, `notReady` for the `return None` on a placeholder (carrying
the possibly-mutated symbol table), `ok` with the merged attribute list, the
mutated symbol table, and the ordering diagnostics. -/
inductive CollectRes where
  | crash
  | notReady (names : List (String × STNode))
  | ok (attrs : List DataclassAttribute) (names : List (String × STNode))
      (diags : List Diagnostic)
deriving DecidableEq, Repr

/-- `DataclassTransformer.collect_attributes` from the source. -/
def collect_attributes (s : ClassState) : CollectRes :=
  match scanBody s.body ⟨s.names, [], []⟩ with
  | ScanRes.crash => CollectRes.crash
  | ScanRes.notReady st => CollectRes.notReady st.names
  | ScanRes.ok st =>
      match mergeMRO (get_method st.names s.mroTail "__init__") s.mroTail st with
      | none => CollectRes.crash
      | some st' =>
          CollectRes.ok st'.attrs st'.names (checkDefaultOrdering st'.attrs)

/-! ### The synthesis stages of `transform` -/

/-- `DataclassAttribute.to_argument`: a constructor parameter for this
attribute; the annotation is `info[self.name].type` (`none` result models
the `KeyError` when the name resolves nowhere along the MRO); the kind is
`ARG_OPT` iff the attribute has a default. -/
def to_argument (names : List (String × STNode)) (mro : List AncestorInfo)
    (a : DataclassAttribute) : Option MArgument :=
  match infoGetN names mro a.name with
  | none => none
  | some stn => some ⟨a.name, stnType stn, a.has_default⟩

/-- `[attr.to_argument(info) for attr in attributes if attr.is_in_init]`,
propagating a `KeyError` from any element. -/
def attrsToArgs (names : List (String × STNode)) (mro : List AncestorInfo) :
    List DataclassAttribute → Option (List MArgument)
  | [] => some []
  | a :: t =>
      match to_argument names mro a with
      | none => none
      | some arg =>
          match attrsToArgs names mro t with
          | none => none
          | some rest => some (arg :: rest)

/-- Modelled from the spec: `add_method` (from `mypy.plugins.common`, not
part of the sources under verification) attaches a synthesized callable with
the given name, ordered typed parameters and return type to the class's
member table, marked as tool-generated; assigning to an existing name
replaces that entry in place, so re-running never duplicates a member
(spec §3 "Synthesized Member", §4.2, §6). -/
def add_method (names : List (String × STNode)) (mname : String)
    (params : List MArgument) (ret : MType) : List (String × STNode) :=
  assocSet names mname ⟨MNode.funcDef ⟨mname, params, ret⟩, true⟩

/-- Outcome of the per-attribute readiness loop at the top of `transform`. -/
inductive DeferRes where
  | crashC
  | deferC
  | passC
deriving DecidableEq, Repr

/-- The loop `for attr in attributes: if info[attr.name].type is None:
ctx.api.defer(); return` (a `KeyError` on the lookup itself is a crash). -/
def deferCheck (names : List (String × STNode)) (mro : List AncestorInfo) :
    List DataclassAttribute → DeferRes
  | [] => DeferRes.passC
  | a :: t =>
      match infoGetN names mro a.name with
      | none => DeferRes.crashC
      | some stn =>
          match stnType stn with
          | none => DeferRes.deferC
          | some _ => deferCheck names mro t

/-- The guard of `__init__` generation (lines 100-102): `init` enabled, no
`__init__` in the class's own symbol table (or only a plugin-generated one),
and a non-empty attribute list. -/
def initCondB (doInit : Bool) (attrs : List DataclassAttribute)
    (names : List (String × STNode)) : Bool :=
  doInit &&
    (match assocGet names "__init__" with
     | none => true
     | some stn => stn.plugin_generated) &&
    !attrs.isEmpty

/-- The `__init__` generation step of `transform` (lines 100-108). -/
def initStage (doInit : Bool) (attrs : List DataclassAttribute)
    (names : List (String × STNode)) (mro : List AncestorInfo) :
    Option (List (String × STNode)) :=
  if initCondB doInit attrs names then
    match attrsToArgs names mro (attrs.filter (fun a => a.is_in_init)) with
    | none => none
    | some params => some (add_method names "__init__" params MType.noneTy)
  else some names

/-- The `_DT` self-type type-variable insertion (lines 110-116); note the
entry is a plain `SymbolTableNode` without the `plugin_generated` mark, and
the condition parses as `(eq and no __eq__) or order`. -/
def tvarStage (eqFlag orderFlag : Bool) (names : List (String × STNode))
    (mro : List AncestorInfo) (fullname : String) : List (String × STNode) :=
  if (eqFlag ∧ infoGetN names mro "__eq__" = none) ∨ orderFlag then
    assocSet names SELF_TVAR_NAME
      ⟨MNode.tvarExpr SELF_TVAR_NAME (fullname ++ "." ++ SELF_TVAR_NAME), false⟩
  else names

/-- The parameter of a generated comparison method: `other` typed with the
self type variable. -/
def cmpArg (fullname : String) : MArgument :=
  ⟨"other", some (MType.tyVar (fullname ++ "." ++ SELF_TVAR_NAME)), false⟩

/-- The return type of the generated comparison methods. -/
def boolTy : MType := MType.prim "__builtins__.bool"

/-- The `__eq__`/`__ne__` generation step (lines 118-137): both methods are
added iff `eq` is enabled and no `__eq__` is found along the MRO. -/
def eqStage (eqFlag : Bool) (names : List (String × STNode))
    (mro : List AncestorInfo) (fullname : String) : List (String × STNode) :=
  if eqFlag ∧ infoGetN names mro "__eq__" = none then
    add_method (add_method names "__eq__" [cmpArg fullname] boolTy)
      "__ne__" [cmpArg fullname] boolTy
  else names

/-- The four ordering method names, in generation order. -/
def orderMethodNames : List String := ["__lt__", "__gt__", "__le__", "__ge__"]

/-- The conflict diagnostic for one ordering method: a pre-existing
non-generated member is reported (its node's source position is not
modelled, so the diagnostic is anchored at (0,0)). -/
def conflictDiag (mro : List AncestorInfo) (names : List (String × STNode))
    (m : String) : List Diagnostic :=
  match infoGetN names mro m with
  | some stn =>
      if stn.plugin_generated then []
      else [⟨"You may not have a custom " ++ m ++ " method when order=True",
             0, 0⟩]
  | none => []

/-- The loop body over the four ordering methods: report a conflict for a
pre-existing non-generated member, then add the method regardless. -/
def orderLoop (mro : List AncestorInfo) (fullname : String) :
    List String → List (String × STNode) →
      List (String × STNode) × List Diagnostic
  | [], names => (names, [])
  | m :: rest, names =>
      ((orderLoop mro fullname rest
          (add_method names m [cmpArg fullname] boolTy)).1,
       conflictDiag mro names m ++
         (orderLoop mro fullname rest
           (add_method names m [cmpArg fullname] boolTy)).2)

/-- The ordering-method step (lines 139-171): when `order` is set, first the
`eq must be True if order is True` diagnostic if `eq` is disabled (context:
the `ClassDef`), then all four methods are processed. -/
def orderStage (orderFlag eqFlag : Bool) (names : List (String × STNode))
    (mro : List AncestorInfo) (fullname : String) (clsLine clsCol : Nat) :
    List (String × STNode) × List Diagnostic :=
  if orderFlag then
    ((orderLoop mro fullname orderMethodNames names).1,
     (if ¬ eqFlag then [⟨"eq must be True if order is True", clsLine, clsCol⟩]
      else []) ++ (orderLoop mro fullname orderMethodNames names).2)
  else (names, [])

/-- `DataclassTransformer._freeze`: mark every attribute as a read-only
property, creating a fresh `Var` (via `to_var`) for names not in the class's
own symbol table; `none` models the failed `assert isinstance(var, Var)` or
a `KeyError` from `info[self.name]` inside `to_var`. -/
def freezeLoop (mro : List AncestorInfo) :
    List DataclassAttribute → List (String × STNode) →
      Option (List (String × STNode))
  | [], names => some names
  | a :: t, names =>
      match assocGet names a.name with
      | some stn =>
          match stn.node with
          | MNode.var v =>
              freezeLoop mro t
                (assocSet names a.name
                  ⟨MNode.var ⟨v.name, v.type, v.is_classvar, true⟩,
                   stn.plugin_generated⟩)
          | _ => none
      | none =>
          match infoGetN names mro a.name with
          | none => none
          | some stn2 =>
              freezeLoop mro t
                (assocSet names a.name
                  ⟨MNode.var ⟨a.name, stnType stn2, false, true⟩, false⟩)

/-- The conditional application of `_freeze` (line 173-174). -/
def freezeStage (frozen : Bool) (mro : List AncestorInfo)
    (attrs : List DataclassAttribute) (names : List (String × STNode)) :
    Option (List (String × STNode)) :=
  if frozen then freezeLoop mro attrs names else some names

/-- `DataclassTransformer.reset_init_only_vars` applied to one attribute's
statement scan: unbind the `node` of every `NameExpr` lvalue with this name
in an assignment that has an unanalyzed type. -/
def resetBody (attrName : String) : List Stmt → List Stmt
  | [] => []
  | Stmt.otherStmt :: t => Stmt.otherStmt :: resetBody attrName t
  | Stmt.assignment a :: t =>
      let a' :=
        if a.unanalyzed_type then
          match a.lvalue with
          | LValue.nameExpr n _ =>
              if n = attrName then
                ⟨a.new_style, LValue.nameExpr n false, a.rvalue,
                 a.unanalyzed_type, a.line, a.column⟩
              else a
          | LValue.otherLValue => a
        else a
      Stmt.assignment a' :: resetBody attrName t

/-- `DataclassTransformer.reset_init_only_vars`: delete every init-only
attribute from the symbol table (`none` models the `KeyError` when the name
is absent) and reset its declaration nodes in the body. -/
def resetInitOnlyVars :
    List DataclassAttribute → List (String × STNode) → List Stmt →
      Option (List (String × STNode) × List Stmt)
  | [], names, body => some (names, body)
  | a :: t, names, body =>
      if a.is_init_var then
        match assocDelete names a.name with
        | none => none
        | some names' => resetInitOnlyVars t names' (resetBody a.name body)
      else resetInitOnlyVars t names body

/-- `OrderedDict((attr.name, attr.serialize()) for attr in attributes)`. -/
def toOrdDict (attrs : List DataclassAttribute) :
    List (String × DataclassAttribute) :=
  attrs.foldl (fun d a => assocSet d a.name a) []

/-- Abstract outcome of one `transform` invocation: `notReady` models the
early return on a placeholder (the defer was already requested externally by
`mark_incomplete`), `deferredOut` the explicit `ctx.api.defer()` on an
unresolved attribute type, `completed` a full run. -/
inductive Outcome where
  | notReady
  | deferredOut
  | completed
deriving DecidableEq, Repr

/-- The observable result of `transform`: the updated class state, the
diagnostics reported through `ctx.api.fail` in order, and the outcome. -/
structure TransformOut where
  st : ClassState
  diags : List Diagnostic
  outcome : Outcome

/-- The composition of the `_DT` type-variable, `__eq__`/`__ne__` and
ordering-method stages (lines 110-171), applied after `__init__`
generation: returns the updated symbol table and the diagnostics of the
ordering step. -/
def methodStages (args : DecoratorArgs) (s : ClassState)
    (names2 : List (String × STNode)) :
    List (String × STNode) × List Diagnostic :=
  orderStage args.order args.eq
    (eqStage args.eq (tvarStage args.eq args.order names2 s.mroTail s.fullname)
      s.mroTail s.fullname)
    s.mroTail s.fullname s.clsLine s.clsCol

/-- `DataclassTransformer.transform` from the source, as a function of the
decorator arguments and the class state; `none` models an uncaught Python
exception (failed assertion, `KeyError`, failed destructuring). -/
def transform (args : DecoratorArgs) (s : ClassState) : Option TransformOut :=
  match collect_attributes s with
  | CollectRes.crash => none
  | CollectRes.notReady names' =>
      some ⟨⟨s.body, names', s.mroTail, s.fullname, s.metadata,
             s.clsLine, s.clsCol⟩, [], Outcome.notReady⟩
  | CollectRes.ok attrs names1 cdiags =>
      match deferCheck names1 s.mroTail attrs with
      | DeferRes.crashC => none
      | DeferRes.deferC =>
          some ⟨⟨s.body, names1, s.mroTail, s.fullname, s.metadata,
                 s.clsLine, s.clsCol⟩, cdiags, Outcome.deferredOut⟩
      | DeferRes.passC =>
          match initStage args.init attrs names1 s.mroTail with
          | none => none
          | some names2 =>
              match
                freezeStage args.frozen s.mroTail attrs
                  (methodStages args s names2).1 with
              | none => none
              | some names6 =>
                  match resetInitOnlyVars attrs names6 s.body with
                  | none => none
                  | some (names7, body') =>
                      some ⟨⟨body', names7, s.mroTail, s.fullname,
                             some ⟨toOrdDict attrs, args.frozen⟩,
                             s.clsLine, s.clsCol⟩,
                            cdiags ++ (methodStages args s names2).2,
                            Outcome.completed⟩

/-! ### Lemmas about the association-list primitives -/

theorem assocGet_set_self {α : Type} (l : List (String × α)) (k : String) (v : α) :
    assocGet (assocSet l k v) k = some v := by
  induction l with
  | nil => simp [assocSet, assocGet]
  | cons p t ih =>
      obtain ⟨a, b⟩ := p
      by_cases hk : a = k
      · simp [assocSet, hk, assocGet]
      · simp [assocSet, hk, assocGet, ih]

theorem assocGet_set_ne {α : Type} (l : List (String × α)) (k n : String) (v : α)
    (h : n ≠ k) : assocGet (assocSet l k v) n = assocGet l n := by
  have hkn : ¬ k = n := fun hh => h hh.symm
  induction l with
  | nil => simp [assocSet, assocGet, hkn]
  | cons p t ih =>
      obtain ⟨a, b⟩ := p
      by_cases hk : a = k
      · subst hk
        simp [assocSet, assocGet, hkn]
      · by_cases han : a = n
        · simp [assocSet, hk, assocGet, han, hkn, h]
        · simp [assocSet, hk, assocGet, han, ih]

theorem assocGet_set_cases {α : Type} (l : List (String × α)) (k n : String) (v : α) :
    assocGet (assocSet l k v) n = if k = n then some v else assocGet l n := by
  by_cases h : k = n
  · subst h; simp [assocGet_set_self]
  · simp [h, assocGet_set_ne l k n v (fun hh => h hh.symm)]

theorem assocSet_id {α : Type} (l : List (String × α)) (k : String) (v : α)
    (h : assocGet l k = some v) : assocSet l k v = l := by
  induction l with
  | nil => simp [assocGet] at h
  | cons p t ih =>
      obtain ⟨a, b⟩ := p
      by_cases hk : a = k
      · subst hk
        have hb : b = v := by simpa [assocGet] using h
        simp [assocSet, hb]
      · simp only [assocGet, if_neg hk] at h
        simp [assocSet, hk, ih h]

theorem assocGet_eq_none {α : Type} (l : List (String × α)) (k : String)
    (h : k ∉ l.map Prod.fst) : assocGet l k = none := by
  induction l with
  | nil => rfl
  | cons p t ih =>
      simp only [List.map_cons, List.mem_cons, not_or] at h
      have : ¬ p.1 = k := fun hh => h.1 hh.symm
      simp [assocGet, this, ih h.2]

/-- Keys of an association list are duplicate-free (an invariant maintained
by construction from `assocSet` / `assocDelete`). -/
abbrev KeysNodup {α : Type} (l : List (String × α)) : Prop :=
  (l.map Prod.fst).Nodup

theorem keys_assocSet {α : Type} (l : List (String × α)) (k : String) (v : α) :
    (assocSet l k v).map Prod.fst =
      if k ∈ l.map Prod.fst then l.map Prod.fst else l.map Prod.fst ++ [k] := by
  induction l with
  | nil => simp [assocSet]
  | cons p t ih =>
      obtain ⟨a, b⟩ := p
      by_cases hk : a = k
      · subst hk; simp [assocSet]
      · have hka : ¬ k = a := fun hh => hk hh.symm
        simp only [assocSet, if_neg hk, List.map_cons, ih]
        by_cases hm : k ∈ t.map Prod.fst
        · simp [hm, hka]
        · simp [hm, hka]

theorem keysNodup_set {α : Type} (l : List (String × α)) (k : String) (v : α)
    (h : KeysNodup l) : KeysNodup (assocSet l k v) := by
  unfold KeysNodup at h ⊢
  rw [keys_assocSet]
  by_cases hm : k ∈ l.map Prod.fst
  · simpa [hm] using h
  · simp [hm, List.nodup_append, h]

theorem keys_delete_subset {α : Type} (l l' : List (String × α)) (k : String)
    (hd : assocDelete l k = some l') :
    ∀ x, x ∈ l'.map Prod.fst → x ∈ l.map Prod.fst := by
  induction l generalizing l' with
  | nil => simp [assocDelete] at hd
  | cons p t ih =>
      obtain ⟨a, b⟩ := p
      by_cases hk : a = k
      · simp only [assocDelete, if_pos hk, Option.some.injEq] at hd
        subst hd
        intro x hx
        exact List.mem_cons_of_mem _ hx
      · simp only [assocDelete, if_neg hk] at hd
        cases ht : assocDelete t k with
        | none => rw [ht] at hd; exact absurd hd (by simp)
        | some t' =>
            rw [ht] at hd
            simp only [Option.some.injEq] at hd
            subst hd
            intro x hx
            simp only [List.map_cons, List.mem_cons] at hx ⊢
            rcases hx with hx | hx
            · exact Or.inl hx
            · exact Or.inr (ih t' ht x hx)

theorem keysNodup_delete {α : Type} (l l' : List (String × α)) (k : String)
    (h : KeysNodup l) (hd : assocDelete l k = some l') : KeysNodup l' := by
  induction l generalizing l' with
  | nil => simp [assocDelete] at hd
  | cons p t ih =>
      obtain ⟨a, b⟩ := p
      simp only [KeysNodup, List.map_cons, List.nodup_cons] at h
      by_cases hk : a = k
      · simp only [assocDelete, if_pos hk, Option.some.injEq] at hd
        subst hd
        exact h.2
      · simp only [assocDelete, if_neg hk] at hd
        cases ht : assocDelete t k with
        | none => rw [ht] at hd; exact absurd hd (by simp)
        | some t' =>
            rw [ht] at hd
            simp only [Option.some.injEq] at hd
            subst hd
            have := ih t' h.2 ht
            simp only [KeysNodup, List.map_cons, List.nodup_cons]
            exact ⟨fun hm => h.1 (keys_delete_subset t t' k ht a hm), this⟩

theorem assocGet_delete_ne {α : Type} (l l' : List (String × α)) (k n : String)
    (hne : n ≠ k) (h : assocDelete l k = some l') :
    assocGet l' n = assocGet l n := by
  induction l generalizing l' with
  | nil => simp [assocDelete] at h
  | cons p t ih =>
      obtain ⟨a, b⟩ := p
      by_cases hk : a = k
      · simp only [assocDelete, if_pos hk, Option.some.injEq] at h
        subst h
        subst hk
        have : ¬ a = n := fun hh => hne (hh ▸ rfl)
        simp [assocGet, this]
      · simp only [assocDelete, if_neg hk] at h
        cases ht : assocDelete t k with
        | none => rw [ht] at h; exact absurd h (by simp)
        | some t' =>
            rw [ht] at h
            simp only [Option.some.injEq] at h
            subst h
            simp [assocGet, ih t' ht]

theorem assocGet_delete_self {α : Type} (l l' : List (String × α)) (k : String)
    (h : KeysNodup l) (hd : assocDelete l k = some l') :
    assocGet l' k = none := by
  induction l generalizing l' with
  | nil => simp [assocDelete] at hd
  | cons p t ih =>
      obtain ⟨a, b⟩ := p
      simp only [KeysNodup, List.map_cons, List.nodup_cons] at h
      by_cases hk : a = k
      · simp only [assocDelete, if_pos hk, Option.some.injEq] at hd
        subst hk
        subst hd
        exact assocGet_eq_none t a h.1
      · simp only [assocDelete, if_neg hk] at hd
        cases ht : assocDelete t k with
        | none => rw [ht] at hd; exact absurd hd (by simp)
        | some t' =>
            rw [ht] at hd
            simp only [Option.some.injEq] at hd
            subst hd
            simp [assocGet, hk, ih t' h.2 ht]

theorem assocGet_none_delete {α : Type} (l l' : List (String × α)) (k n : String)
    (hn : assocGet l n = none) (h : assocDelete l k = some l') :
    assocGet l' n = none := by
  induction l generalizing l' with
  | nil => simp [assocDelete] at h
  | cons p t ih =>
      obtain ⟨a, b⟩ := p
      by_cases hank : a = k
      · simp only [assocDelete, if_pos hank, Option.some.injEq] at h
        subst h
        by_cases han : a = n
        · simp [assocGet, han] at hn
        · simpa [assocGet, han] using hn
      · simp only [assocDelete, if_neg hank] at h
        cases ht : assocDelete t k with
        | none => rw [ht] at h; exact absurd h (by simp)
        | some t' =>
            rw [ht] at h
            simp only [Option.some.injEq] at h
            subst h
            by_cases han : a = n
            · simp [assocGet, han] at hn
            · simp only [assocGet, if_neg han] at hn
              simp [assocGet, han, ih t' hn ht]

/-! ### Theorems about `_collect_field_args` -/

theorem fieldArgsLoop_none_iff (l : List (Option String × MExpr))
    (acc : List (String × MExpr)) :
    fieldArgsLoop l acc = none ↔ l.any (fun p => p.1.isNone) = true := by
  induction l generalizing acc with
  | nil => simp [fieldArgsLoop]
  | cons p t ih =>
      obtain ⟨onm, e⟩ := p
      cases onm with
      | none => simp [fieldArgsLoop]
      | some n => simp [fieldArgsLoop, ih]

/-- Claim C10: the field-specification-call parser `_collect_field_args` is
total exactly on `dataclasses.field(...)` calls whose arguments are all
keyword arguments: it fails (the modelled `assert name is not None`, i.e. it
produces neither a result nor a diagnostic — the function has no diagnostic
channel at all) precisely when some argument of the call is positional. -/
theorem C10_field_args_assertion (args : List (Option String × MExpr)) :
    _collect_field_args (MExpr.call (some "dataclasses.field") args) = none ↔
      args.any (fun p => p.1.isNone) = true := by
  simp only [_collect_field_args, if_pos rfl]
  cases h : fieldArgsLoop args [] with
  | none => simpa [h] using (fieldArgsLoop_none_iff args []).1 h
  | some d =>
      have := (fieldArgsLoop_none_iff args []).not
      simp only [h] at this
      simpa using this.1 (by simp)

/-! ### The closed form of the default-ordering check -/

/-- All (strict-prefix, element) pairs of a list, in order. -/
def splits {α : Type} : List α → List (List α × α)
  | [] => []
  | a :: t => ([], a) :: (splits t).map (fun p => (a :: p.1, p.2))

theorem checkDO_eq (fd : Bool) (attrs : List DataclassAttribute) :
    checkDO fd attrs =
      ((splits attrs).filter (fun p =>
          p.2.is_in_init && !p.2.has_default &&
            (fd || p.1.any (fun b => b.has_default && b.is_in_init)))).map
        (fun p => ⟨orderingViolationMsg, p.2.line, p.2.column⟩) := by
  induction attrs generalizing fd with
  | nil => rfl
  | cons a t ih =>
      by_cases hii : a.is_in_init
      all_goals by_cases hhd : a.has_default
      all_goals by_cases hfd : fd
      all_goals
        simp [checkDO, splits, hii, hhd, hfd, List.filter_map, List.map_map,
          Function.comp_def, List.any_cons, Bool.or_assoc, ih, List.filter_cons]

/-! ### Invariants of `collect_attributes` -/

theorem injectInitVar_get_ne (initm : Option MFuncDef) (an : String)
    (names : List (String × STNode)) (n : String) (h : n ≠ an) :
    assocGet (injectInitVar initm an names) n = assocGet names n := by
  cases initm with
  | none => rfl
  | some f =>
      simp only [injectInitVar]
      induction f.arguments generalizing names with
      | nil => rfl
      | cons arg rest ih =>
          simp only [List.foldl_cons]
          by_cases ha : arg.varName = an
          · rw [if_pos ha, ih, assocGet_set_ne _ _ _ _ h]
          · rw [if_neg ha, ih]

theorem injectInitVar_funcdef (initm : Option MFuncDef) (an : String)
    (names : List (String × STNode)) (n : String) (f : MFuncDef) (pg : Bool)
    (h : assocGet (injectInitVar initm an names) n = some ⟨MNode.funcDef f, pg⟩) :
    assocGet names n = some ⟨MNode.funcDef f, pg⟩ := by
  cases initm with
  | none => exact h
  | some fd =>
      simp only [injectInitVar] at h
      revert h
      induction fd.arguments generalizing names with
      | nil => exact fun h => h
      | cons arg rest ih =>
          intro h
          simp only [List.foldl_cons] at h
          by_cases ha : arg.varName = an
          · rw [if_pos ha] at h
            have := ih _ h
            rw [assocGet_set_cases] at this
            by_cases hn : an = n
            · simp [hn] at this
            · simpa [hn] using this
          · rw [if_neg ha] at h
            exact ih _ h

theorem injectInitVar_nodup (initm : Option MFuncDef) (an : String)
    (names : List (String × STNode)) (h : KeysNodup names) :
    KeysNodup (injectInitVar initm an names) := by
  cases initm with
  | none => exact h
  | some f =>
      simp only [injectInitVar]
      induction f.arguments generalizing names with
      | nil => exact h
      | cons arg rest ih =>
          simp only [List.foldl_cons]
          by_cases ha : arg.varName = an
          · rw [if_pos ha]
            exact ih _ (keysNodup_set _ _ _ h)
          · rw [if_neg ha]
            exact ih _ h

/-- Invariant relating a `collect_attributes` accumulator state to a later
one: every attribute already collected persists, the symbol table is
modified only at names of (finally) collected attributes, no `FuncDef`
entry is ever created or changed, and key uniqueness is preserved. -/
def CollectInv (st st' : ScanSt) : Prop :=
  (∀ x, x ∈ st.attrs → x ∈ st'.attrs) ∧
  (∀ n, (∀ a ∈ st'.attrs, a.name ≠ n) →
    assocGet st'.names n = assocGet st.names n) ∧
  (∀ n f pg, assocGet st'.names n = some ⟨MNode.funcDef f, pg⟩ →
    assocGet st.names n = some ⟨MNode.funcDef f, pg⟩) ∧
  (KeysNodup st.names → KeysNodup st'.names)

theorem collectInv_refl (st : ScanSt) : CollectInv st st :=
  ⟨fun _ hx => hx, fun _ _ => rfl, fun _ _ _ h => h, id⟩

theorem collectInv_trans {s1 s2 s3 : ScanSt}
    (h12 : CollectInv s1 s2) (h23 : CollectInv s2 s3) : CollectInv s1 s3 := by
  refine ⟨fun x hx => h23.1 x (h12.1 x hx), ?_, ?_, fun h => h23.2.2.2 (h12.2.2.2 h)⟩
  · intro n hn
    have h2 : ∀ a ∈ s2.attrs, a.name ≠ n := fun a ha => hn a (h23.1 a ha)
    rw [h23.2.1 n hn, h12.2.1 n h2]
  · intro n f pg h
    exact h12.2.2.1 n f pg (h23.2.2.1 n f pg h)

theorem stripNames_get_ne (lname : String) (stn : STNode) (v : MVar)
    (names : List (String × STNode)) (n : String) (h : n ≠ lname) :
    assocGet (stripNames lname stn v names) n = assocGet names n := by
  unfold stripNames
  split
  · exact assocGet_set_ne _ _ _ _ h
  · rfl

theorem stripNames_funcdef (lname : String) (stn : STNode) (v : MVar)
    (names : List (String × STNode)) (n : String) (f : MFuncDef) (pg : Bool)
    (h : assocGet (stripNames lname stn v names) n = some ⟨MNode.funcDef f, pg⟩) :
    assocGet names n = some ⟨MNode.funcDef f, pg⟩ := by
  unfold stripNames at h
  split at h
  · rw [assocGet_set_cases] at h
    by_cases hn : lname = n
    · simp [hn] at h
    · rw [if_neg hn] at h; exact h
  · exact h

theorem stripNames_nodup (lname : String) (stn : STNode) (v : MVar)
    (names : List (String × STNode)) (h : KeysNodup names) :
    KeysNodup (stripNames lname stn v names) := by
  unfold stripNames
  split
  · exact keysNodup_set _ _ _ h
  · exact h

theorem scanStep_notReady_eq (stm : Stmt) (st st' : ScanSt)
    (h : scanStep stm st = StepRes.notReady st') : st' = st := by
  cases stm with
  | otherStmt => exact absurd h (by simp [scanStep])
  | assignment a =>
      simp only [scanStep] at h
      repeat' split at h
      all_goals
        first
        | (injection h with h'; exact h'.symm)
        | cases h

/-- The `CollectInv` step for the branch of `scanStep` that collects an
attribute. -/
theorem collectInv_collect (st : ScanSt) (lname : String) (stn : STNode)
    (v : MVar) (ii iv hd : Bool) (line col : Nat) :
    CollectInv st
      ⟨stripNames lname stn v st.names,
       st.attrs ++ [⟨lname, ii, iv, hd, line, col⟩],
       insertKnown lname st.known⟩ := by
  refine ⟨?_, ?_, ?_, ?_⟩
  · intro x hx
    exact List.mem_append_left _ hx
  · intro n hn
    have hne : n ≠ lname := by
      have h1 := hn ⟨lname, ii, iv, hd, line, col⟩ (by simp)
      exact fun hh => h1 hh.symm
    exact stripNames_get_ne _ _ _ _ _ hne
  · intro n f pg hfp
    exact stripNames_funcdef _ _ _ _ _ _ _ hfp
  · exact stripNames_nodup _ _ _ _

theorem scanStep_next_inv (stm : Stmt) (st st' : ScanSt)
    (h : scanStep stm st = StepRes.next st') : CollectInv st st' := by
  cases stm with
  | otherStmt =>
      simp only [scanStep] at h
      injection h with h'
      subst h'
      exact collectInv_refl st
  | assignment a =>
      simp only [scanStep] at h
      repeat' split at h
      all_goals cases h
      all_goals
        first
        | exact collectInv_refl st
        | exact collectInv_collect st _ _ _ _ _ _ _ _

theorem scanBody_inv (body : List Stmt) (st st' : ScanSt)
    (h : scanBody body st = ScanRes.ok st' ∨
      scanBody body st = ScanRes.notReady st') :
    CollectInv st st' := by
  induction body generalizing st with
  | nil =>
      rcases h with h | h
      · simp only [scanBody] at h
        injection h with h'
        subst h'
        exact collectInv_refl st
      · simp only [scanBody] at h
        cases h
  | cons stm t ih =>
      cases hstep : scanStep stm st with
      | crash =>
          rcases h with h | h <;> (simp only [scanBody, hstep] at h; cases h)
      | notReady st2 =>
          rcases h with h | h
          · simp only [scanBody, hstep] at h
            cases h
          · simp only [scanBody, hstep] at h
            injection h with h'
            subst h'
            rw [scanStep_notReady_eq stm st st2 hstep]
            exact collectInv_refl st
      | next st2 =>
          rcases h with h | h
          · simp only [scanBody, hstep] at h
            exact collectInv_trans (scanStep_next_inv stm st st2 hstep)
              (ih st2 (Or.inl h))
          · simp only [scanBody, hstep] at h
            exact collectInv_trans (scanStep_next_inv stm st st2 hstep)
              (ih st2 (Or.inr h))

theorem mem_eraseFirst (l : List DataclassAttribute)
    (a x : DataclassAttribute) (hx : x ∈ l) :
    x ∈ eraseFirst l a ∨ x = a := by
  induction l with
  | nil => cases hx
  | cons b t ih =>
      by_cases hb : b = a
      · simp only [eraseFirst, if_pos hb]
        rcases List.mem_cons.1 hx with hx | hx
        · exact Or.inr (hx.trans hb)
        · exact Or.inl hx
      · simp only [eraseFirst, if_neg hb]
        rcases List.mem_cons.1 hx with hx | hx
        · exact Or.inl (hx ▸ List.mem_cons_self b (eraseFirst t a))
        · rcases ih hx with h | h
          · exact Or.inl (List.mem_cons_of_mem _ h)
          · exact Or.inr h

theorem mergeNames_get_ne (initm : Option MFuncDef) (data : DataclassAttribute)
    (names : List (String × STNode)) (n : String) (h : n ≠ data.name) :
    assocGet (mergeNames initm data names) n = assocGet names n := by
  unfold mergeNames
  split
  · exact injectInitVar_get_ne _ _ _ _ h
  · rfl

theorem mergeNames_funcdef (initm : Option MFuncDef) (data : DataclassAttribute)
    (names : List (String × STNode)) (n : String) (f : MFuncDef) (pg : Bool)
    (h : assocGet (mergeNames initm data names) n = some ⟨MNode.funcDef f, pg⟩) :
    assocGet names n = some ⟨MNode.funcDef f, pg⟩ := by
  unfold mergeNames at h
  split at h
  · exact injectInitVar_funcdef _ _ _ _ _ _ h
  · exact h

theorem mergeNames_nodup (initm : Option MFuncDef) (data : DataclassAttribute)
    (names : List (String × STNode)) (h : KeysNodup names) :
    KeysNodup (mergeNames initm data names) := by
  unfold mergeNames
  split
  · exact injectInitVar_nodup _ _ _ h
  · exact h

theorem mergeAncAttrs_inv (initm : Option MFuncDef)
    (ancA : List (String × DataclassAttribute)) (st : ScanSt)
    (superAttrs : List DataclassAttribute) (st' : ScanSt)
    (h : mergeAncAttrs initm ancA st superAttrs = some st') :
    (∀ x, x ∈ st.attrs ∨ x ∈ superAttrs → x ∈ st'.attrs) ∧
    (∀ n, (∀ a ∈ st'.attrs, a.name ≠ n) →
      assocGet st'.names n = assocGet st.names n) ∧
    (∀ n f pg, assocGet st'.names n = some ⟨MNode.funcDef f, pg⟩ →
      assocGet st.names n = some ⟨MNode.funcDef f, pg⟩) ∧
    (KeysNodup st.names → KeysNodup st'.names) := by
  induction ancA generalizing st superAttrs with
  | nil =>
      simp only [mergeAncAttrs] at h
      injection h with h'
      subst h'
      refine ⟨?_, fun n _ => rfl, fun n f pg hh => hh, id⟩
      intro x hx
      rcases hx with hx | hx
      · exact List.mem_append_right _ hx
      · exact List.mem_append_left _ hx
  | cons p rest ih =>
      obtain ⟨nm, data⟩ := p
      simp only [mergeAncAttrs] at h
      split at h
      · -- nm already known: move the unique matching attribute
        split at h
        · rename_i a hfil
          have hi := ih _ _ h
          refine ⟨?_, ?_, hi.2.2.1, hi.2.2.2⟩
          · intro x hx
            rcases hx with hx | hx
            · rcases mem_eraseFirst st.attrs a x hx with hh | hh
              · exact hi.1 x (Or.inl hh)
              · subst hh
                exact hi.1 x (Or.inr (List.mem_append_right _ (by simp)))
            · exact hi.1 x (Or.inr (List.mem_append_left _ hx))
          · intro n hn
            exact hi.2.1 n hn
        · cases h
      · -- nm seen for the first time: deserialize (with InitVar re-injection)
        have hi := ih _ _ h
        have hdmem : data ∈ st'.attrs :=
          hi.1 data (Or.inr (List.mem_append_right _ (by simp)))
        refine ⟨?_, ?_, ?_, ?_⟩
        · intro x hx
          rcases hx with hx | hx
          · exact hi.1 x (Or.inl hx)
          · exact hi.1 x (Or.inr (List.mem_append_left _ hx))
        · intro n hn
          rw [hi.2.1 n hn]
          exact mergeNames_get_ne _ _ _ _ (fun hh => hn data hdmem hh.symm)
        · intro n f pg hh
          exact mergeNames_funcdef _ _ _ _ _ _ (hi.2.2.1 n f pg hh)
        · intro hch
          exact hi.2.2.2 (mergeNames_nodup _ _ _ hch)

theorem mergeMRO_inv (initm : Option MFuncDef) (ancs : List AncestorInfo)
    (st st' : ScanSt) (h : mergeMRO initm ancs st = some st') :
    CollectInv st st' := by
  induction ancs generalizing st with
  | nil =>
      simp only [mergeMRO] at h
      injection h with h'
      subst h'
      exact collectInv_refl st
  | cons anc rest ih =>
      simp only [mergeMRO] at h
      split at h
      · exact ih st h
      · rename_i md hm
        split at h
        · cases h
        · rename_i st2 hma
          have hi := mergeAncAttrs_inv initm md.attributes st [] st2 hma
          have base : CollectInv st st2 :=
            ⟨fun x hx => hi.1 x (Or.inl hx), hi.2.1, hi.2.2.1, hi.2.2.2⟩
          exact collectInv_trans base (ih st2 h)

theorem collect_ok_inv (s : ClassState) (attrs : List DataclassAttribute)
    (names1 : List (String × STNode)) (diags : List Diagnostic)
    (h : collect_attributes s = CollectRes.ok attrs names1 diags) :
    (∀ n, (∀ a ∈ attrs, a.name ≠ n) →
      assocGet names1 n = assocGet s.names n) ∧
    (∀ n f pg, assocGet names1 n = some ⟨MNode.funcDef f, pg⟩ →
      assocGet s.names n = some ⟨MNode.funcDef f, pg⟩) ∧
    (KeysNodup s.names → KeysNodup names1) ∧
    diags = checkDefaultOrdering attrs := by
  unfold collect_attributes at h
  split at h
  · cases h
  · cases h
  · rename_i st hscan
    split at h
    · cases h
    · rename_i st2 hmerge
      injection h with h1 h2 h3
      subst h1; subst h2; subst h3
      have i1 := scanBody_inv s.body ⟨s.names, [], []⟩ st (Or.inl hscan)
      have i2 := mergeMRO_inv _ s.mroTail st st2 hmerge
      have it := collectInv_trans i1 i2
      exact ⟨it.2.1, it.2.2.1, it.2.2.2, rfl⟩

theorem collect_notReady_inv (s : ClassState)
    (names1 : List (String × STNode))
    (h : collect_attributes s = CollectRes.notReady names1) :
    (∀ n f pg, assocGet names1 n = some ⟨MNode.funcDef f, pg⟩ →
      assocGet s.names n = some ⟨MNode.funcDef f, pg⟩) ∧
    (KeysNodup s.names → KeysNodup names1) := by
  unfold collect_attributes at h
  split at h
  · cases h
  · rename_i st hscan
    injection h with h'
    subst h'
    have i1 := scanBody_inv s.body ⟨s.names, [], []⟩ st (Or.inr hscan)
    exact ⟨i1.2.2.1, i1.2.2.2⟩
  · rename_i st hscan
    split at h
    · cases h
    · cases h

/-! ### Lemmas about the synthesis stages -/

theorem attrsToArgs_shape (names : List (String × STNode))
    (mro : List AncestorInfo) (l : List DataclassAttribute)
    (ps : List MArgument) (h : attrsToArgs names mro l = some ps) :
    ps.map (fun p => p.varName) = l.map (fun a => a.name) ∧
    ps.map (fun p => p.opt) = l.map (fun a => a.has_default) := by
  induction l generalizing ps with
  | nil =>
      simp only [attrsToArgs] at h
      injection h with h'
      subst h'
      exact ⟨rfl, rfl⟩
  | cons a t ih =>
      simp only [attrsToArgs] at h
      split at h
      · cases h
      · rename_i arg harg
        split at h
        · cases h
        · rename_i rest hrest
          injection h with h'
          subst h'
          unfold to_argument at harg
          split at harg
          · cases harg
          · injection harg with h2
            subst h2
            have hi := ih rest hrest
            simp [hi.1, hi.2]

theorem initStage_get_ne (doInit : Bool) (attrs : List DataclassAttribute)
    (names : List (String × STNode)) (mro : List AncestorInfo)
    (names' : List (String × STNode))
    (h : initStage doInit attrs names mro = some names')
    (n : String) (hn : n ≠ "__init__") :
    assocGet names' n = assocGet names n := by
  unfold initStage at h
  split at h
  · split at h
    · cases h
    · injection h with h'
      subst h'
      unfold add_method
      exact assocGet_set_ne _ _ _ _ hn
  · injection h with h'
    subst h'
    rfl

theorem initStage_nodup (doInit : Bool) (attrs : List DataclassAttribute)
    (names : List (String × STNode)) (mro : List AncestorInfo)
    (names' : List (String × STNode))
    (h : initStage doInit attrs names mro = some names')
    (hch : KeysNodup names) : KeysNodup names' := by
  unfold initStage at h
  split at h
  · split at h
    · cases h
    · injection h with h'
      subst h'
      exact keysNodup_set _ _ _ hch
  · injection h with h'
    subst h'
    exact hch

theorem tvarStage_get_ne (eqF oF : Bool) (names : List (String × STNode))
    (mro : List AncestorInfo) (fn : String) (n : String)
    (hn : n ≠ SELF_TVAR_NAME) :
    assocGet (tvarStage eqF oF names mro fn) n = assocGet names n := by
  unfold tvarStage
  split
  · exact assocGet_set_ne _ _ _ _ hn
  · rfl

theorem tvarStage_nodup (eqF oF : Bool) (names : List (String × STNode))
    (mro : List AncestorInfo) (fn : String) (hch : KeysNodup names) :
    KeysNodup (tvarStage eqF oF names mro fn) := by
  unfold tvarStage
  split
  · exact keysNodup_set _ _ _ hch
  · exact hch

theorem eqStage_get_ne (eqF : Bool) (names : List (String × STNode))
    (mro : List AncestorInfo) (fn : String) (n : String)
    (hn1 : n ≠ "__eq__") (hn2 : n ≠ "__ne__") :
    assocGet (eqStage eqF names mro fn) n = assocGet names n := by
  unfold eqStage
  split
  · unfold add_method
    rw [assocGet_set_ne _ _ _ _ hn2, assocGet_set_ne _ _ _ _ hn1]
  · rfl

theorem eqStage_nodup (eqF : Bool) (names : List (String × STNode))
    (mro : List AncestorInfo) (fn : String) (hch : KeysNodup names) :
    KeysNodup (eqStage eqF names mro fn) := by
  unfold eqStage
  split
  · exact keysNodup_set _ _ _ (keysNodup_set _ _ _ hch)
  · exact hch

theorem orderLoop_get_ne (mro : List AncestorInfo) (fn : String)
    (ms : List String) (names : List (String × STNode)) (n : String)
    (hn : n ∉ ms) :
    assocGet (orderLoop mro fn ms names).1 n = assocGet names n := by
  induction ms generalizing names with
  | nil => rfl
  | cons m rest ih =>
      simp only [orderLoop]
      have hnm : n ≠ m := fun hh => hn (hh ▸ List.mem_cons_self m rest)
      have hnr : n ∉ rest := fun hh => hn (List.mem_cons_of_mem _ hh)
      rw [ih _ hnr]
      unfold add_method
      exact assocGet_set_ne _ _ _ _ hnm

theorem orderLoop_nodup (mro : List AncestorInfo) (fn : String)
    (ms : List String) (names : List (String × STNode))
    (hch : KeysNodup names) : KeysNodup (orderLoop mro fn ms names).1 := by
  induction ms generalizing names with
  | nil => exact hch
  | cons m rest ih =>
      simp only [orderLoop]
      exact ih _ (keysNodup_set _ _ _ hch)

theorem orderLoop_adds (mro : List AncestorInfo) (fn : String)
    (ms : List String) (names : List (String × STNode))
    (hnd : ms.Nodup) :
    ∀ m ∈ ms, assocGet (orderLoop mro fn ms names).1 m =
      some ⟨MNode.funcDef ⟨m, [cmpArg fn], boolTy⟩, true⟩ := by
  induction ms generalizing names with
  | nil => intro m hm; cases hm
  | cons m0 rest ih =>
      intro m hm
      simp only [orderLoop]
      rcases List.mem_cons.1 hm with hm | hm
      · subst hm
        have hni : m ∉ rest := (List.nodup_cons.1 hnd).1
        rw [orderLoop_get_ne mro fn rest _ m hni]
        unfold add_method
        exact assocGet_set_self _ _ _
      · exact ih _ (List.nodup_cons.1 hnd).2 m hm

theorem orderLoop_diags (mro : List AncestorInfo) (fn : String)
    (ms : List String) (names : List (String × STNode))
    (hok : ∀ m ∈ ms, ∀ stn, infoGetN names mro m = some stn →
      stn.plugin_generated = true) :
    (orderLoop mro fn ms names).2 = [] := by
  induction ms generalizing names with
  | nil => rfl
  | cons m0 rest ih =>
      simp only [orderLoop]
      have h0 : conflictDiag mro names m0 = [] := by
        unfold conflictDiag
        split
        · rename_i stn hg
          simp [hok m0 (List.mem_cons_self m0 rest) stn hg]
        · rfl
      rw [h0, List.nil_append]
      apply ih
      intro m hm stn hg
      unfold infoGetN at hg
      unfold add_method at hg
      rw [assocGet_set_cases] at hg
      by_cases hm0 : m0 = m
      · rw [if_pos hm0] at hg
        injection hg with hg'
        rw [hg'.symm]
      · rw [if_neg hm0] at hg
        exact hok m (List.mem_cons_of_mem _ hm) stn hg

theorem orderStage_get_ne (oF eF : Bool) (names : List (String × STNode))
    (mro : List AncestorInfo) (fn : String) (cl cc : Nat) (n : String)
    (hn : n ∉ orderMethodNames) :
    assocGet (orderStage oF eF names mro fn cl cc).1 n = assocGet names n := by
  unfold orderStage
  split
  · exact orderLoop_get_ne mro fn orderMethodNames names n hn
  · rfl

theorem orderStage_nodup (oF eF : Bool) (names : List (String × STNode))
    (mro : List AncestorInfo) (fn : String) (cl cc : Nat)
    (hch : KeysNodup names) :
    KeysNodup (orderStage oF eF names mro fn cl cc).1 := by
  unfold orderStage
  split
  · exact orderLoop_nodup mro fn orderMethodNames names hch
  · exact hch

theorem freezeLoop_get_ne (mro : List AncestorInfo)
    (attrs : List DataclassAttribute) (names names' : List (String × STNode))
    (h : freezeLoop mro attrs names = some names') (n : String)
    (hn : ∀ a ∈ attrs, a.name ≠ n) :
    assocGet names' n = assocGet names n := by
  induction attrs generalizing names with
  | nil =>
      simp only [freezeLoop] at h
      injection h with h'
      subst h'
      rfl
  | cons a t ih =>
      have hna : a.name ≠ n := hn a (List.mem_cons_self a t)
      have hnt : ∀ b ∈ t, b.name ≠ n := fun b hb => hn b (List.mem_cons_of_mem _ hb)
      simp only [freezeLoop] at h
      split at h
      · split at h
        · rw [ih _ h hnt]
          exact assocGet_set_ne _ _ _ _ (fun hh => hna hh.symm)
        · cases h
      · split at h
        · cases h
        · rw [ih _ h hnt]
          exact assocGet_set_ne _ _ _ _ (fun hh => hna hh.symm)

theorem freezeLoop_nodup (mro : List AncestorInfo)
    (attrs : List DataclassAttribute) (names names' : List (String × STNode))
    (h : freezeLoop mro attrs names = some names') (hch : KeysNodup names) :
    KeysNodup names' := by
  induction attrs generalizing names with
  | nil =>
      simp only [freezeLoop] at h
      injection h with h'
      subst h'
      exact hch
  | cons a t ih =>
      simp only [freezeLoop] at h
      split at h
      · split at h
        · exact ih _ h (keysNodup_set _ _ _ hch)
        · cases h
      · split at h
        · cases h
        · exact ih _ h (keysNodup_set _ _ _ hch)

/-- A name is bound to a read-only-property `Var` in the symbol table. -/
def PropAt (names : List (String × STNode)) (n : String) : Prop :=
  ∃ v pg, assocGet names n = some ⟨MNode.var v, pg⟩ ∧ v.is_property = true

theorem freezeLoop_preserves_propAt (mro : List AncestorInfo)
    (attrs : List DataclassAttribute) (names names' : List (String × STNode))
    (h : freezeLoop mro attrs names = some names') (n : String)
    (hp : PropAt names n) : PropAt names' n := by
  induction attrs generalizing names with
  | nil =>
      simp only [freezeLoop] at h
      injection h with h'
      subst h'
      exact hp
  | cons a t ih =>
      simp only [freezeLoop] at h
      split at h
      · split at h
        · rename_i stn hga v hv
          apply ih _ h
          by_cases han : a.name = n
          · subst han
            exact ⟨_, _, assocGet_set_self _ _ _, rfl⟩
          · obtain ⟨w, pg, hw, hwp⟩ := hp
            exact ⟨w, pg, by rw [assocGet_set_ne _ _ _ _ (fun hh => han hh.symm)]; exact hw, hwp⟩
        · cases h
      · split at h
        · cases h
        · rename_i hga stn2 hg2
          apply ih _ h
          by_cases han : a.name = n
          · subst han
            exact ⟨_, _, assocGet_set_self _ _ _, rfl⟩
          · obtain ⟨w, pg, hw, hwp⟩ := hp
            exact ⟨w, pg, by rw [assocGet_set_ne _ _ _ _ (fun hh => han hh.symm)]; exact hw, hwp⟩

theorem freezeLoop_property (mro : List AncestorInfo)
    (attrs : List DataclassAttribute) (names names' : List (String × STNode))
    (h : freezeLoop mro attrs names = some names') :
    ∀ a ∈ attrs, PropAt names' a.name := by
  induction attrs generalizing names with
  | nil => intro a ha; cases ha
  | cons b t ih =>
      intro a ha
      simp only [freezeLoop] at h
      rcases List.mem_cons.1 ha with hab | hat
      · subst hab
        split at h
        · split at h
          · exact freezeLoop_preserves_propAt mro t _ _ h a.name
              ⟨_, _, assocGet_set_self _ _ _, rfl⟩
          · cases h
        · split at h
          · cases h
          · exact freezeLoop_preserves_propAt mro t _ _ h a.name
              ⟨_, _, assocGet_set_self _ _ _, rfl⟩
      · split at h
        · split at h
          · exact ih _ h a hat
          · cases h
        · split at h
          · cases h
          · exact ih _ h a hat

theorem resetIOV_get_ne (attrs : List DataclassAttribute)
    (names : List (String × STNode)) (body : List Stmt)
    (names' : List (String × STNode)) (body' : List Stmt)
    (h : resetInitOnlyVars attrs names body = some (names', body'))
    (n : String) (hn : ∀ a ∈ attrs, a.is_init_var = true → a.name ≠ n) :
    assocGet names' n = assocGet names n := by
  induction attrs generalizing names body with
  | nil =>
      simp only [resetInitOnlyVars] at h
      injection h with h'
      injection h' with h1 h2
      subst h1
      rfl
  | cons a t ih =>
      have hnt : ∀ b ∈ t, b.is_init_var = true → b.name ≠ n :=
        fun b hb => hn b (List.mem_cons_of_mem _ hb)
      simp only [resetInitOnlyVars] at h
      split at h
      · rename_i hiv
        have hna : a.name ≠ n := hn a (List.mem_cons_self a t) hiv
        split at h
        · cases h
        · rename_i names2 hdel
          rw [ih _ _ h hnt]
          exact assocGet_delete_ne _ _ _ _ (fun hh => hna hh.symm) hdel
      · exact ih _ _ h hnt

theorem resetIOV_preserves_none (attrs : List DataclassAttribute)
    (names : List (String × STNode)) (body : List Stmt)
    (names' : List (String × STNode)) (body' : List Stmt)
    (h : resetInitOnlyVars attrs names body = some (names', body'))
    (n : String) (hn : assocGet names n = none) :
    assocGet names' n = none := by
  induction attrs generalizing names body with
  | nil =>
      simp only [resetInitOnlyVars] at h
      injection h with h'
      injection h' with h1 h2
      subst h1
      exact hn
  | cons a t ih =>
      simp only [resetInitOnlyVars] at h
      split at h
      · split at h
        · cases h
        · rename_i names2 hdel
          exact ih _ _ h (assocGet_none_delete _ _ _ _ hn hdel)
      · exact ih _ _ h hn

theorem resetIOV_gone (attrs : List DataclassAttribute)
    (names : List (String × STNode)) (body : List Stmt)
    (names' : List (String × STNode)) (body' : List Stmt)
    (h : resetInitOnlyVars attrs names body = some (names', body'))
    (hch : KeysNodup names) :
    ∀ a ∈ attrs, a.is_init_var = true → assocGet names' a.name = none := by
  induction attrs generalizing names body with
  | nil => intro a ha; cases ha
  | cons b t ih =>
      intro a ha hiv
      simp only [resetInitOnlyVars] at h
      rcases List.mem_cons.1 ha with hab | hat
      · subst hab
        rw [if_pos hiv] at h
        split at h
        · cases h
        · rename_i names2 hdel
          exact resetIOV_preserves_none t _ _ _ _ h a.name
            (assocGet_delete_self _ _ _ hch hdel)
      · split at h
        · split at h
          · cases h
          · rename_i names2 hdel
            exact ih _ _ h (keysNodup_delete _ _ _ hch hdel) a hat hiv
        · exact ih _ _ h hch a hat hiv

theorem freezeStage_get_ne (frozen : Bool) (mro : List AncestorInfo)
    (attrs : List DataclassAttribute) (names names6 : List (String × STNode))
    (hfr : freezeStage frozen mro attrs names = some names6)
    (n : String) (hn : ∀ a ∈ attrs, a.name ≠ n) :
    assocGet names6 n = assocGet names n := by
  unfold freezeStage at hfr
  split at hfr
  · exact freezeLoop_get_ne _ _ _ _ hfr _ hn
  · injection hfr with h'
    subst h'
    rfl

theorem freezeStage_nodup (frozen : Bool) (mro : List AncestorInfo)
    (attrs : List DataclassAttribute) (names names6 : List (String × STNode))
    (hfr : freezeStage frozen mro attrs names = some names6)
    (hch : KeysNodup names) : KeysNodup names6 := by
  unfold freezeStage at hfr
  split at hfr
  · exact freezeLoop_nodup _ _ _ _ hfr hch
  · injection hfr with h'
    subst h'
    exact hch

/-! ### Decomposition of a completed `transform` run -/

theorem transform_completed_decomp (args : DecoratorArgs) (s : ClassState)
    (out : TransformOut) (h : transform args s = some out)
    (hc : out.outcome = Outcome.completed) :
    ∃ attrs names1 cdiags names2 names6 names7 body',
      collect_attributes s = CollectRes.ok attrs names1 cdiags ∧
      deferCheck names1 s.mroTail attrs = DeferRes.passC ∧
      initStage args.init attrs names1 s.mroTail = some names2 ∧
      freezeStage args.frozen s.mroTail attrs
        (methodStages args s names2).1 = some names6 ∧
      resetInitOnlyVars attrs names6 s.body = some (names7, body') ∧
      out = ⟨⟨body', names7, s.mroTail, s.fullname,
              some ⟨toOrdDict attrs, args.frozen⟩, s.clsLine, s.clsCol⟩,
             cdiags ++ (methodStages args s names2).2, Outcome.completed⟩ := by
  unfold transform at h
  split at h
  · cases h
  · injection h with h'
    subst h'
    simp at hc
  · rename_i attrs names1 cdiags hcol
    split at h
    · cases h
    · injection h with h'
      subst h'
      simp at hc
    · rename_i hdef
      split at h
      · cases h
      · rename_i names2 hinit
        split at h
        · cases h
        · rename_i names6 hfr
          split at h
          · cases h
          · rename_i names7 body' hres
            injection h with h'
            exact ⟨attrs, names1, cdiags, names2, names6, names7, body',
              hcol, hdef, hinit, hfr, hres, h'.symm⟩

/-! ### Helpers for concrete instances -/

/-- The `builtins.int` instance type. -/
def intTy : MType := MType.prim "builtins.int"

/-- A plain resolved instance-variable symbol-table entry. -/
def mkVar (n : String) (t : Option MType) : STNode :=
  ⟨MNode.var ⟨n, t, false, false⟩, false⟩

/-- A `n: T = rv` field declaration statement (new type-declaration syntax,
unanalyzed annotation present, bound name node). -/
def fieldStmt (n : String) (rv : MExpr) (line : Nat) : Stmt :=
  Stmt.assignment ⟨true, LValue.nameExpr n true, rv, true, line, 0⟩

/-- The decorator defaults of the source:
`init=True, eq=True, order=False, frozen=False`. -/
def defaultArgs : DecoratorArgs := ⟨true, true, false, false⟩

/-- Projections of an `ok` collection result (defaulting on the other
outcomes), used to state concrete instances without large literals. -/
def collectAttrsOf (s : ClassState) : List DataclassAttribute :=
  match collect_attributes s with
  | CollectRes.ok a _ _ => a
  | _ => []

def collectNamesOf (s : ClassState) : List (String × STNode) :=
  match collect_attributes s with
  | CollectRes.ok _ n _ => n
  | _ => []

def collectDiagsOf (s : ClassState) : List Diagnostic :=
  match collect_attributes s with
  | CollectRes.ok _ _ d => d
  | _ => []

/-- Total extraction of a `transform` result (trivial default when the run
crashed), used to state concrete instances as closed terms. -/
def transformOutD (args : DecoratorArgs) (s : ClassState) : TransformOut :=
  match transform args s with
  | some o => o
  | none => ⟨s, [], Outcome.notReady⟩

theorem infoGetN_congr (n1 n2 : List (String × STNode))
    (mro : List AncestorInfo) (x : String)
    (h : assocGet n1 x = assocGet n2 x) :
    infoGetN n1 mro x = infoGetN n2 mro x := by
  unfold infoGetN
  rw [h]

theorem tvarStage_sets (eqF oF : Bool) (names : List (String × STNode))
    (mro : List AncestorInfo) (fn : String)
    (hcond : (eqF = true ∧ infoGetN names mro "__eq__" = none) ∨ oF = true) :
    assocGet (tvarStage eqF oF names mro fn) SELF_TVAR_NAME =
      some ⟨MNode.tvarExpr SELF_TVAR_NAME (fn ++ "." ++ SELF_TVAR_NAME),
            false⟩ := by
  unfold tvarStage
  rw [if_pos hcond]
  exact assocGet_set_self _ _ _

/-! ### Claim C5 -/

/-- The class of C5's concrete scenario: `x: int = <expr>` then `y: int`
(a non-default in-constructor field after a defaulted one). -/
def exC5 : ClassState :=
  ⟨[fieldStmt "x" MExpr.otherExpr 2, fieldStmt "y" MExpr.tempNode 3],
   [("x", mkVar "x" (some intTy)), ("y", mkVar "y" (some intTy))],
   [], "m.C5", none, 1, 0⟩

/-- Claim C5: the default-ordering check of `collect_attributes` emits
exactly one diagnostic (with the offending field's source position) per
in-constructor field without a default that follows some earlier
in-constructor field with a default — characterised in closed form over all
(prefix, element) splits of the merged list; the diagnostics are exactly
what `collect_attributes` returns alongside the *unchanged* full attribute
list; and (concretely) a violating class still completes its transform with
the constructor synthesized over the full, invalid signature. -/
theorem C5_ordering_diagnostics :
    (∀ attrs : List DataclassAttribute,
      checkDefaultOrdering attrs =
        ((splits attrs).filter (fun p =>
            p.2.is_in_init && !p.2.has_default &&
              p.1.any (fun b => b.has_default && b.is_in_init))).map
          (fun p => ⟨orderingViolationMsg, p.2.line, p.2.column⟩)) ∧
    (∀ (s : ClassState) (attrs : List DataclassAttribute)
        (names1 : List (String × STNode)) (diags : List Diagnostic),
      collect_attributes s = CollectRes.ok attrs names1 diags →
      diags = checkDefaultOrdering attrs) ∧
    (∃ out, transform defaultArgs exC5 = some out ∧
      out.outcome = Outcome.completed ∧
      out.diags = [⟨orderingViolationMsg, 3, 0⟩] ∧
      assocGet out.st.names "__init__" =
        some ⟨MNode.funcDef ⟨"__init__",
          [⟨"x", some intTy, true⟩, ⟨"y", some intTy, false⟩],
          MType.noneTy⟩, true⟩) := by
  refine ⟨?_, ?_, ?_⟩
  · intro attrs
    rw [checkDefaultOrdering, checkDO_eq]
    simp only [Bool.false_or]
  · intro s attrs names1 diags h
    exact (collect_ok_inv s attrs names1 diags h).2.2.2
  · exact ⟨transformOutD defaultArgs exC5, by rfl, by decide, by decide,
      by decide⟩

/-- Witness for C5: the second conjunct applied at the concrete class. -/
theorem C5_ordering_diagnostics_witness :
    collectDiagsOf exC5 = checkDefaultOrdering (collectAttrsOf exC5) :=
  C5_ordering_diagnostics.2.1 exC5 (collectAttrsOf exC5) (collectNamesOf exC5)
    (collectDiagsOf exC5) (by decide)

/-! ### Claim C9 -/

/-- The class of C9's witness: a single field `x: int`, default flags. -/
def exC9 : ClassState :=
  ⟨[fieldStmt "x" MExpr.tempNode 2],
   [("x", mkVar "x" (some intTy))],
   [], "m.C9", none, 1, 0⟩

/-- Claim C9: whenever the equality branch fires (`eq` enabled and no
pre-existing `__eq__` along the MRO) or `order` is true, a completed
transform leaves an extra `_DT` member — the self-type type-variable
expression, not marked plugin-generated — in the class's symbol table
(provided no field is itself named `_DT`, which would remove or corrupt
the entry). -/
theorem C9_self_tvar (args : DecoratorArgs) (s : ClassState)
    (out : TransformOut) (attrs : List DataclassAttribute)
    (names1 : List (String × STNode)) (cdiags : List Diagnostic)
    (h : transform args s = some out)
    (hc : out.outcome = Outcome.completed)
    (hcol : collect_attributes s = CollectRes.ok attrs names1 cdiags)
    (hcond : (args.eq = true ∧ infoGetN names1 s.mroTail "__eq__" = none) ∨
      args.order = true)
    (hhyg : ∀ a ∈ attrs, a.name ≠ SELF_TVAR_NAME) :
    assocGet out.st.names SELF_TVAR_NAME =
      some ⟨MNode.tvarExpr SELF_TVAR_NAME
              (s.fullname ++ "." ++ SELF_TVAR_NAME), false⟩ := by
  obtain ⟨attrs', names1', cdiags', names2, names6, names7, body',
    hcol', hdef, hinit, hfr, hres, hout⟩ :=
    transform_completed_decomp args s out h hc
  rw [hcol] at hcol'
  injection hcol' with e1 e2 e3
  subst e1; subst e2; subst e3
  -- the tvar condition still holds after `__init__` generation
  have heqp : assocGet names2 "__eq__" = assocGet names1 "__eq__" :=
    initStage_get_ne _ _ _ _ _ hinit _ (by decide)
  have hcond2 : (args.eq = true ∧
      infoGetN names2 s.mroTail "__eq__" = none) ∨ args.order = true := by
    rcases hcond with ⟨he, hn⟩ | ho
    · exact Or.inl ⟨he, by rw [infoGetN_congr _ names1 _ _ heqp]; exact hn⟩
    · exact Or.inr ho
  -- `_DT` is written by the tvar stage and survives the remaining stages
  have h3 : assocGet (tvarStage args.eq args.order names2 s.mroTail s.fullname)
      SELF_TVAR_NAME =
      some ⟨MNode.tvarExpr SELF_TVAR_NAME
              (s.fullname ++ "." ++ SELF_TVAR_NAME), false⟩ :=
    tvarStage_sets _ _ _ _ _ hcond2
  have h4 : assocGet (methodStages args s names2).1 SELF_TVAR_NAME =
      some ⟨MNode.tvarExpr SELF_TVAR_NAME
              (s.fullname ++ "." ++ SELF_TVAR_NAME), false⟩ := by
    unfold methodStages
    rw [orderStage_get_ne _ _ _ _ _ _ _ _ (by decide),
        eqStage_get_ne _ _ _ _ _ (by decide) (by decide)]
    exact h3
  have h6 : assocGet names6 SELF_TVAR_NAME =
      some ⟨MNode.tvarExpr SELF_TVAR_NAME
              (s.fullname ++ "." ++ SELF_TVAR_NAME), false⟩ := by
    rw [freezeStage_get_ne _ _ _ _ _ hfr _ hhyg]
    exact h4
  have h7 : assocGet names7 SELF_TVAR_NAME =
      some ⟨MNode.tvarExpr SELF_TVAR_NAME
              (s.fullname ++ "." ++ SELF_TVAR_NAME), false⟩ := by
    rw [resetIOV_get_ne _ _ _ _ _ hres _ (fun a ha _ => hhyg a ha)]
    exact h6
  rw [hout]
  exact h7

/-- Witness for C9: the concrete one-field class with default flags. -/
theorem C9_self_tvar_witness :
    ∃ out, transform defaultArgs exC9 = some out ∧
      assocGet out.st.names SELF_TVAR_NAME =
        some ⟨MNode.tvarExpr SELF_TVAR_NAME
                (exC9.fullname ++ "." ++ SELF_TVAR_NAME), false⟩ := by
  refine ⟨transformOutD defaultArgs exC9, by rfl, ?_⟩
  exact C9_self_tvar defaultArgs exC9 (transformOutD defaultArgs exC9)
    (collectAttrsOf exC9) (collectNamesOf exC9) (collectDiagsOf exC9)
    (by rfl) (by decide) (by rfl) (Or.inl ⟨rfl, by decide⟩) (by decide)

/-! ### Claim C3: merge-order characterisation -/

theorem insertKnown_mem (m : String) (K : List String) (n : String) :
    n ∈ insertKnown m K ↔ n = m ∨ n ∈ K := by
  unfold insertKnown
  split
  · rename_i hm
    constructor
    · exact Or.inr
    · rintro (rfl | hh)
      · exact hm
      · exact hh
  · simp [or_comm]

theorem filter_eq_singleton_find (L : List DataclassAttribute)
    (p : DataclassAttribute → Bool) (a : DataclassAttribute)
    (h : L.filter p = [a]) : L.find? p = some a := by
  induction L with
  | nil => simp at h
  | cons b t ih =>
      by_cases hb : p b
      · rw [List.filter_cons_of_pos hb] at h
        injection h with h1 h2
        subst h1
        exact List.find?_cons_of_pos _ hb
      · rw [List.filter_cons_of_neg hb] at h
        rw [List.find?_cons_of_neg _ hb]
        exact ih h

theorem eraseFirst_sublist (l : List DataclassAttribute)
    (a : DataclassAttribute) : (eraseFirst l a).Sublist l := by
  induction l with
  | nil => simp [eraseFirst]
  | cons b t ih =>
      unfold eraseFirst
      split
      · exact List.sublist_cons_self b t
      · exact ih.cons₂ b

theorem names_eraseFirst_nodup (L : List DataclassAttribute)
    (a : DataclassAttribute) (h : (L.map (fun x => x.name)).Nodup) :
    ((eraseFirst L a).map (fun x => x.name)).Nodup :=
  h.sublist ((eraseFirst_sublist L a).map _)

theorem names_eraseFirst_mem (L : List DataclassAttribute)
    (a : DataclassAttribute) (n : String) (hne : a.name ≠ n) :
    (n ∈ (eraseFirst L a).map (fun x => x.name)) ↔
      n ∈ L.map (fun x => x.name) := by
  induction L with
  | nil => simp [eraseFirst]
  | cons b t ih =>
      unfold eraseFirst
      split
      · rename_i hb
        subst hb
        simp [Ne.symm hne]
      · simp [ih]

theorem find?_eraseFirst (L : List DataclassAttribute)
    (a : DataclassAttribute) (m : String) (hne : a.name ≠ m) :
    (eraseFirst L a).find? (fun x => x.name = m) =
      L.find? (fun x => x.name = m) := by
  induction L with
  | nil => rfl
  | cons b t ih =>
      unfold eraseFirst
      split
      · rename_i hb
        subst hb
        rw [List.find?_cons_of_neg _ (by simpa using hne)]
      · by_cases hpb : b.name = m
        · rw [List.find?_cons_of_pos _ (by simpa using hpb),
              List.find?_cons_of_pos _ (by simpa using hpb)]
        · rw [List.find?_cons_of_neg _ (by simpa using hpb),
              List.find?_cons_of_neg _ (by simpa using hpb), ih]

theorem filter_shift_erase (L : List DataclassAttribute)
    (a : DataclassAttribute) (nm : String) (ks : List String)
    (hnd : (L.map (fun x => x.name)).Nodup) (ha : a ∈ L) (han : a.name = nm) :
    L.filter (fun x => !((nm :: ks).contains x.name)) =
      (eraseFirst L a).filter (fun x => !(ks.contains x.name)) := by
  induction L with
  | nil => cases ha
  | cons b t ih =>
      simp only [List.map_cons, List.nodup_cons] at hnd
      by_cases hba : b = a
      · unfold eraseFirst
        rw [if_pos hba]
        subst hba
        rw [List.filter_cons_of_neg (by simp [List.contains_cons, han])]
        apply List.filter_congr
        intro x hx
        have hxn : x.name ≠ nm := by
          intro hxn
          apply hnd.1
          rw [han, ← hxn]
          exact List.mem_map_of_mem (fun y => y.name) hx
        simp [List.contains_cons, hxn]
      · have hat : a ∈ t := by
          rcases List.mem_cons.1 ha with hh | hh
          · exact absurd hh.symm hba
          · exact hh
        have hbn : b.name ≠ nm := by
          intro hh
          apply hnd.1
          rw [hh, ← han]
          exact List.mem_map_of_mem (fun y => y.name) hat
        unfold eraseFirst
        rw [if_neg hba]
        rw [List.filter_cons, List.filter_cons]
        have hcond : ((nm :: ks).contains b.name) = (ks.contains b.name) := by
          have hb : (b.name == nm) = false := beq_false_of_ne hbn
          simp [List.contains_cons, hb]
          exact fun hh => absurd hh hbn
        rw [hcond, ih hnd.2 hat]

theorem mergeAncAttrs_char (initm : Option MFuncDef)
    (ancA : List (String × DataclassAttribute)) :
    ∀ (L : List DataclassAttribute) (names : List (String × STNode))
      (known : List String) (superAttrs : List DataclassAttribute)
      (st' : ScanSt),
      (L.map (fun a => a.name)).Nodup →
      (ancA.map Prod.fst).Nodup →
      (∀ n ∈ ancA.map Prod.fst, (n ∈ known ↔ n ∈ L.map (fun a => a.name))) →
      mergeAncAttrs initm ancA ⟨names, L, known⟩ superAttrs = some st' →
      st'.attrs = superAttrs ++
        ancA.map (fun p =>
          match L.find? (fun a => a.name = p.1) with
          | some a => a
          | none => p.2) ++
        L.filter (fun a => !((ancA.map Prod.fst).contains a.name)) := by
  induction ancA with
  | nil =>
      intro L names known superAttrs st' hL hA hK h
      simp only [mergeAncAttrs] at h
      injection h with h'
      subst h'
      simp
  | cons p rest ih =>
      obtain ⟨nm, data⟩ := p
      intro L names known superAttrs st' hL hA hK h
      simp only [List.map_cons, List.nodup_cons] at hA
      simp only [mergeAncAttrs] at h
      split at h
      · rename_i hkn
        have hnmL : nm ∈ L.map (fun a => a.name) :=
          (hK nm (by simp)).1 hkn
        split at h
        · rename_i a hfil
          have hamem : a ∈ L.filter (fun x => x.name = nm) := by
            rw [hfil]; simp
          have haL : a ∈ L := (List.mem_filter.1 hamem).1
          have han : a.name = nm := by
            simpa using (List.mem_filter.1 hamem).2
          have hfind : L.find? (fun x => decide (x.name = nm)) = some a :=
            filter_eq_singleton_find L _ a hfil
          have hK2 : ∀ n ∈ rest.map Prod.fst,
              (n ∈ known ↔ n ∈ (eraseFirst L a).map (fun x => x.name)) := by
            intro n hn
            have hne : a.name ≠ n := by
              rw [han]
              exact fun hh => hA.1 (hh ▸ hn)
            rw [names_eraseFirst_mem L a n hne]
            exact hK n (by simp [hn])
          have hrec := ih (eraseFirst L a) names known (superAttrs ++ [a]) st'
            (names_eraseFirst_nodup L a hL) hA.2 hK2 h
          rw [hrec]
          have hmap : rest.map (fun p =>
              match (eraseFirst L a).find? (fun x => x.name = p.1) with
              | some b => b
              | none => p.2) =
            rest.map (fun p =>
              match L.find? (fun x => x.name = p.1) with
              | some b => b
              | none => p.2) := by
            apply List.map_congr_left
            intro q hq
            have hne : a.name ≠ q.1 := by
              rw [han]
              exact fun hh => hA.1 (hh ▸ List.mem_map_of_mem Prod.fst hq)
            rw [find?_eraseFirst L a q.1 hne]
          have hfilter :
              L.filter (fun x => !((nm :: rest.map Prod.fst).contains x.name)) =
              (eraseFirst L a).filter
                (fun x => !((rest.map Prod.fst).contains x.name)) :=
            filter_shift_erase L a nm (rest.map Prod.fst) hL haL han
          simp only [List.map_cons, hfind, hmap, hfilter]
          simp [List.append_assoc]
        · cases h
      · rename_i hkn
        have hnmL : nm ∉ L.map (fun a => a.name) := fun hh =>
          hkn ((hK nm (by simp)).2 hh)
        have hK2 : ∀ n ∈ rest.map Prod.fst,
            (n ∈ insertKnown nm known ↔ n ∈ L.map (fun x => x.name)) := by
          intro n hn
          have hne : n ≠ nm := fun hh => hA.1 (hh ▸ hn)
          rw [insertKnown_mem]
          constructor
          · rintro (rfl | hh)
            · exact absurd rfl hne
            · exact (hK n (by simp [hn])).1 hh
          · intro hh
            exact Or.inr ((hK n (by simp [hn])).2 hh)
        have hrec := ih L (mergeNames initm data names) (insertKnown nm known)
          (superAttrs ++ [data]) st' hL hA.2 hK2 h
        rw [hrec]
        have hfind : L.find? (fun x => decide (x.name = nm)) = none := by
          rw [List.find?_eq_none]
          intro x hx
          simp only [decide_eq_true_eq]
          exact fun hh => hnmL (hh ▸ List.mem_map_of_mem (fun y => y.name) hx)
        have hfilter :
            L.filter (fun x => !((nm :: rest.map Prod.fst).contains x.name)) =
            L.filter (fun x => !((rest.map Prod.fst).contains x.name)) := by
          apply List.filter_congr
          intro x hx
          have hxn : x.name ≠ nm := fun hh =>
            hnmL (hh ▸ List.mem_map_of_mem (fun y => y.name) hx)
          simp [List.contains_cons, hxn]
        simp only [List.map_cons, hfind, hfilter]
        simp [List.append_assoc]

/-- Base-class field descriptors of the C3 scenario (`[a, b]`). -/
def attrA : DataclassAttribute := ⟨"a", true, false, false, 10, 0⟩

def attrB : DataclassAttribute := ⟨"b", true, false, false, 11, 0⟩

/-- An already-processed base class with fields `[a, b]`. -/
def ancBase : AncestorInfo :=
  ⟨"m.Base",
   [("a", mkVar "a" (some intTy)), ("b", mkVar "b" (some intTy)),
    ("__init__", ⟨MNode.funcDef ⟨"__init__",
      [⟨"a", some intTy, false⟩, ⟨"b", some intTy, false⟩],
      MType.noneTy⟩, true⟩)],
   some ⟨[("a", attrA), ("b", attrB)], false⟩⟩

/-- A subclass of `ancBase` declaring `[b, c]` (new default for `b`). -/
def exC3 : ClassState :=
  ⟨[fieldStmt "b" MExpr.otherExpr 2, fieldStmt "c" MExpr.otherExpr 3],
   [("b", mkVar "b" (some intTy)), ("c", mkVar "c" (some intTy))],
   [ancBase], "m.Sub", none, 1, 0⟩

/-- The nearer ancestor of the two-level C3 scenario: declares `a` (with a
new default, overriding the root) and `b`. -/
def ancMid : AncestorInfo :=
  ⟨"m.Mid",
   [("a", mkVar "a" (some intTy)), ("b", mkVar "b" (some intTy))],
   some ⟨[("a", ⟨"a", true, false, true, 20, 0⟩),
          ("b", ⟨"b", true, false, false, 21, 0⟩)], false⟩⟩

/-- The most-base ancestor of the two-level C3 scenario: declares `a`. -/
def ancRoot : AncestorInfo :=
  ⟨"m.Root",
   [("a", mkVar "a" (some intTy))],
   some ⟨[("a", ⟨"a", true, false, false, 30, 0⟩)], false⟩⟩

/-- A subclass of `Mid < Root` declaring only `c`. -/
def exC3two : ClassState :=
  ⟨[fieldStmt "c" MExpr.otherExpr 2],
   [("c", mkVar "c" (some intTy))],
   [ancMid, ancRoot], "m.Sub2", none, 1, 0⟩

/-- The local field list collected from `exC3`'s body. -/
def c3L : List DataclassAttribute :=
  [⟨"b", true, false, true, 2, 0⟩, ⟨"c", true, false, true, 3, 0⟩]

/-- `ancBase`'s stored attribute items. -/
def c3anc : List (String × DataclassAttribute) := [("a", attrA), ("b", attrB)]

/-- Total extraction of a merge result (trivial default on crash). -/
def mergeOutD (initm : Option MFuncDef)
    (ancA : List (String × DataclassAttribute)) (st : ScanSt)
    (superAttrs : List DataclassAttribute) : ScanSt :=
  match mergeAncAttrs initm ancA st superAttrs with
  | some st' => st'
  | none => st

/-- Claim C3: merging one ancestor's stored attribute list into the locally
collected list places every overridden name at the slot of the ancestor's
stored order while keeping the more-derived descriptor (the local one), and
keeps every local field not declared by the ancestor after all inherited
fields, in declaration order — the closed form over `find?`/`filter`.
Concretely: base `[a, b]` merged with subclass `[b, c]` yields `[a, b, c]`
with the subclass's descriptor for `b`; and with a two-level chain
`Mid < Root` both declaring `a`, the merged order puts `a` at the most-base
slot (first) while keeping the most-derived declarer's (`Mid`'s) descriptor. -/
theorem C3_merge_positions :
    (∀ (initm : Option MFuncDef)
       (ancA : List (String × DataclassAttribute))
       (L : List DataclassAttribute) (names : List (String × STNode))
       (known : List String) (superAttrs : List DataclassAttribute)
       (st' : ScanSt),
      (L.map (fun a => a.name)).Nodup →
      (ancA.map Prod.fst).Nodup →
      (∀ n ∈ ancA.map Prod.fst, (n ∈ known ↔ n ∈ L.map (fun a => a.name))) →
      mergeAncAttrs initm ancA ⟨names, L, known⟩ superAttrs = some st' →
      st'.attrs = superAttrs ++
        ancA.map (fun p =>
          match L.find? (fun a => a.name = p.1) with
          | some a => a
          | none => p.2) ++
        L.filter (fun a => !((ancA.map Prod.fst).contains a.name))) ∧
    (collectAttrsOf exC3 =
      [attrA, ⟨"b", true, false, true, 2, 0⟩, ⟨"c", true, false, true, 3, 0⟩]) ∧
    (collectAttrsOf exC3two =
      [⟨"a", true, false, true, 20, 0⟩, ⟨"b", true, false, false, 21, 0⟩,
       ⟨"c", true, false, true, 2, 0⟩]) := by
  refine ⟨fun initm ancA => mergeAncAttrs_char initm ancA, by decide, by decide⟩

/-- Witness for C3: the closed form applied to the concrete base/subclass
merge of `exC3`. -/
theorem C3_merge_positions_witness :
    (mergeOutD none c3anc ⟨[], c3L, ["b", "c"]⟩ []).attrs =
      [] ++ c3anc.map (fun p =>
        match c3L.find? (fun a => a.name = p.1) with
        | some a => a
        | none => p.2) ++
      c3L.filter (fun a => !((c3anc.map Prod.fst).contains a.name)) :=
  C3_merge_positions.1 none c3anc c3L [] ["b", "c"] []
    (mergeOutD none c3anc ⟨[], c3L, ["b", "c"]⟩ [])
    (by decide) (by decide) (by decide) (by rfl)

/-! ### Claim C1 -/

/-- The class of C1's scenario: one field `x: int`. -/
def exC1 : ClassState :=
  ⟨[fieldStmt "x" MExpr.tempNode 2], [("x", mkVar "x" (some intTy))],
   [], "m.C1", none, 1, 0⟩

/-- `order=true, eq=false` decorator arguments. -/
def orderNoEqArgs : DecoratorArgs := ⟨true, false, true, false⟩

/-- Counterexample to claim C1 as stated: with `order=true, eq=false` on a
fresh one-field class the transform emits exactly the one diagnostic, but
nevertheless synthesizes all four ordering methods into the member table —
refuting "synthesizes none of the four ordering methods". -/
theorem C1_order_without_eq_counterexample :
    ∃ out, transform orderNoEqArgs exC1 = some out ∧
      out.outcome = Outcome.completed ∧
      out.diags = [⟨"eq must be True if order is True", 1, 0⟩] ∧
      ∀ m ∈ orderMethodNames,
        assocGet out.st.names m =
          some ⟨MNode.funcDef ⟨m, [cmpArg exC1.fullname], boolTy⟩, true⟩ :=
  ⟨transformOutD orderNoEqArgs exC1, by rfl, by decide, by decide, by decide⟩

/-- Claim C1 (amended): if `order=true` and `eq=false`, a completed
transform emits exactly one diagnostic `eq must be True if order is True`,
anchored at the class — provided the merged field list has no
default-ordering violations and every pre-existing comparison method is
plugin-generated — and, contrary to the original claim, all four ordering
methods ARE synthesized into the member table (provided no field shares
their names). -/
theorem C1_order_without_eq_amended (args : DecoratorArgs) (s : ClassState)
    (out : TransformOut) (attrs : List DataclassAttribute)
    (names1 : List (String × STNode)) (cdiags : List Diagnostic)
    (h : transform args s = some out)
    (hc : out.outcome = Outcome.completed)
    (hcol : collect_attributes s = CollectRes.ok attrs names1 cdiags)
    (ho : args.order = true) (he : args.eq = false)
    (hnod : cdiags = [])
    (hclean : ∀ m ∈ orderMethodNames, ∀ stn,
      infoGetN names1 s.mroTail m = some stn → stn.plugin_generated = true)
    (hhyg : ∀ a ∈ attrs, ∀ m ∈ orderMethodNames, a.name ≠ m) :
    out.diags = [⟨"eq must be True if order is True", s.clsLine, s.clsCol⟩] ∧
    ∀ m ∈ orderMethodNames,
      assocGet out.st.names m =
        some ⟨MNode.funcDef ⟨m, [cmpArg s.fullname], boolTy⟩, true⟩ := by
  obtain ⟨attrs', names1', cdiags', names2, names6, names7, body',
    hcol', hdef, hinit, hfr, hres, hout⟩ :=
    transform_completed_decomp args s out h hc
  rw [hcol] at hcol'
  injection hcol' with e1 e2 e3
  subst e1; subst e2; subst e3
  set names4 := eqStage args.eq
    (tvarStage args.eq args.order names2 s.mroTail s.fullname)
    s.mroTail s.fullname with hn4
  have hagree : ∀ m ∈ orderMethodNames,
      assocGet names4 m = assocGet names1 m := by
    intro m hm
    rw [hn4]
    fin_cases hm <;>
      rw [eqStage_get_ne _ _ _ _ _ (by decide) (by decide),
          tvarStage_get_ne _ _ _ _ _ _ (by decide),
          initStage_get_ne _ _ _ _ _ hinit _ (by decide)]
  have hclean4 : ∀ m ∈ orderMethodNames, ∀ stn,
      infoGetN names4 s.mroTail m = some stn → stn.plugin_generated = true := by
    intro m hm stn hg
    rw [infoGetN_congr names4 names1 s.mroTail m (hagree m hm)] at hg
    exact hclean m hm stn hg
  have hms1 : (methodStages args s names2).1 =
      (orderLoop s.mroTail s.fullname orderMethodNames names4).1 := by
    unfold methodStages orderStage
    rw [if_pos ho]
  have hms2 : (methodStages args s names2).2 =
      [⟨"eq must be True if order is True", s.clsLine, s.clsCol⟩] := by
    unfold methodStages orderStage
    rw [if_pos ho, orderLoop_diags _ _ _ _ hclean4]
    rw [if_pos (by rw [he]; exact Bool.false_ne_true)]
    rfl
  constructor
  · rw [hout]
    show cdiags ++ (methodStages args s names2).2 = _
    rw [hnod, hms2, List.nil_append]
  · intro m hm
    have h5 : assocGet (methodStages args s names2).1 m =
        some ⟨MNode.funcDef ⟨m, [cmpArg s.fullname], boolTy⟩, true⟩ := by
      rw [hms1]
      exact orderLoop_adds s.mroTail s.fullname orderMethodNames names4
        (by decide) m hm
    have h6 : assocGet names6 m =
        some ⟨MNode.funcDef ⟨m, [cmpArg s.fullname], boolTy⟩, true⟩ := by
      rw [freezeStage_get_ne _ _ _ _ _ hfr _ (fun a ha => hhyg a ha m hm)]
      exact h5
    have h7 : assocGet names7 m =
        some ⟨MNode.funcDef ⟨m, [cmpArg s.fullname], boolTy⟩, true⟩ := by
      rw [resetIOV_get_ne _ _ _ _ _ hres _ (fun a ha _ => hhyg a ha m hm)]
      exact h6
    rw [hout]
    exact h7

/-- Witness for the amended C1 at the concrete one-field class. -/
theorem C1_order_without_eq_amended_witness :
    ∃ out, transform orderNoEqArgs exC1 = some out ∧
      out.diags = [⟨"eq must be True if order is True", exC1.clsLine,
        exC1.clsCol⟩] ∧
      ∀ m ∈ orderMethodNames,
        assocGet out.st.names m =
          some ⟨MNode.funcDef ⟨m, [cmpArg exC1.fullname], boolTy⟩, true⟩ := by
  refine ⟨transformOutD orderNoEqArgs exC1, by rfl, ?_⟩
  exact C1_order_without_eq_amended orderNoEqArgs exC1
    (transformOutD orderNoEqArgs exC1) (collectAttrsOf exC1)
    (collectNamesOf exC1) (collectDiagsOf exC1) (by rfl) (by decide) (by rfl)
    (by decide) (by decide) (by decide) (by decide) (by decide)

/-! ### Claim C4 -/

/-- The class of C4's counterexample: one field `x: int` and a
previously plugin-generated `__init__` with a stale parameter list. -/
def exC4 : ClassState :=
  ⟨[fieldStmt "x" MExpr.tempNode 2],
   [("__init__", ⟨MNode.funcDef ⟨"__init__", [⟨"old", some intTy, false⟩],
       MType.noneTy⟩, true⟩),
    ("x", mkVar "x" (some intTy))],
   [], "m.C4", none, 1, 0⟩

/-- Counterexample to claim C4 as stated: a previously plugin-generated
`__init__` is present, yet the transform synthesizes the constructor again
(replacing the stale parameter list `[old]` with the field list `[x]`) —
refuting "synthesized exactly when ... no user-written (or previously
generated) constructor exists". -/
theorem C4_init_synthesis_counterexample :
    (∃ f : MFuncDef, assocGet exC4.names "__init__" =
      some ⟨MNode.funcDef f, true⟩ ∧
      f.arguments.map (fun p => p.varName) = ["old"]) ∧
    (∃ out, transform defaultArgs exC4 = some out ∧
      out.outcome = Outcome.completed ∧
      assocGet out.st.names "__init__" =
        some ⟨MNode.funcDef ⟨"__init__", [⟨"x", some intTy, false⟩],
          MType.noneTy⟩, true⟩) := by
  constructor
  · exact ⟨⟨"__init__", [⟨"old", some intTy, false⟩], MType.noneTy⟩,
      by decide, by decide⟩
  · exact ⟨transformOutD defaultArgs exC4, by rfl, by decide, by decide⟩

/-- Claim C4 (amended): on a completed transform, the constructor is
synthesized exactly when the code's guard holds — `init` enabled, own
`__init__` absent or plugin-generated (a previously generated constructor is
regenerated, not skipped), and the merged field list non-empty.  When the
guard holds, the fresh plugin-generated `__init__`'s parameters follow field
order restricted to `included_in_constructor` fields, are optional exactly
for `has_default` fields, and the return type is `None`; when it does not
hold, the `__init__` entry is exactly what collection left there.  (Fields
must not shadow generated member names for the entry to survive the later
stages.) -/
theorem C4_init_synthesis_amended (args : DecoratorArgs) (s : ClassState)
    (out : TransformOut) (attrs : List DataclassAttribute)
    (names1 : List (String × STNode)) (cdiags : List Diagnostic)
    (h : transform args s = some out)
    (hc : out.outcome = Outcome.completed)
    (hcol : collect_attributes s = CollectRes.ok attrs names1 cdiags)
    (hhyg : ∀ a ∈ attrs, a.name ≠ "__init__") :
    (initCondB args.init attrs names1 = true →
      ∃ params,
        attrsToArgs names1 s.mroTail (attrs.filter (fun a => a.is_in_init)) =
          some params ∧
        assocGet out.st.names "__init__" =
          some ⟨MNode.funcDef ⟨"__init__", params, MType.noneTy⟩, true⟩ ∧
        params.map (fun p => p.varName) =
          (attrs.filter (fun a => a.is_in_init)).map (fun a => a.name) ∧
        params.map (fun p => p.opt) =
          (attrs.filter (fun a => a.is_in_init)).map (fun a => a.has_default)) ∧
    (initCondB args.init attrs names1 = false →
      assocGet out.st.names "__init__" = assocGet names1 "__init__") := by
  obtain ⟨attrs', names1', cdiags', names2, names6, names7, body',
    hcol', hdef, hinit, hfr, hres, hout⟩ :=
    transform_completed_decomp args s out h hc
  rw [hcol] at hcol'
  injection hcol' with e1 e2 e3
  subst e1; subst e2; subst e3
  have hpres : ∀ v, assocGet names2 "__init__" = v →
      assocGet out.st.names "__init__" = v := by
    intro v hv
    rw [hout]
    show assocGet names7 "__init__" = v
    rw [resetIOV_get_ne _ _ _ _ _ hres _ (fun a ha _ => hhyg a ha),
        freezeStage_get_ne _ _ _ _ _ hfr _ hhyg]
    unfold methodStages
    rw [orderStage_get_ne _ _ _ _ _ _ _ _ (by decide),
        eqStage_get_ne _ _ _ _ _ (by decide) (by decide),
        tvarStage_get_ne _ _ _ _ _ _ (by decide)]
    exact hv
  constructor
  · intro hcond
    unfold initStage at hinit
    rw [hcond, if_pos rfl] at hinit
    cases hargs : attrsToArgs names1 s.mroTail
        (attrs.filter (fun a => a.is_in_init)) with
    | none => rw [hargs] at hinit; cases hinit
    | some params =>
        rw [hargs] at hinit
        injection hinit with h2
        have hshape := attrsToArgs_shape names1 s.mroTail _ params hargs
        refine ⟨params, rfl, ?_, hshape.1, hshape.2⟩
        apply hpres
        rw [← h2]
        unfold add_method
        exact assocGet_set_self _ _ _
  · intro hcond
    unfold initStage at hinit
    rw [hcond] at hinit
    simp only [Bool.false_eq_true, if_false] at hinit
    injection hinit with h2
    apply hpres
    rw [← h2]

/-- Witness for the amended C4: the guard holds at `exC4` (its `__init__`
is plugin-generated), so the constructor is regenerated over `[x]`. -/
theorem C4_init_synthesis_amended_witness :
    ∃ out, transform defaultArgs exC4 = some out ∧
      ∃ params,
        attrsToArgs (collectNamesOf exC4) exC4.mroTail
            ((collectAttrsOf exC4).filter (fun a => a.is_in_init)) =
          some params ∧
        assocGet out.st.names "__init__" =
          some ⟨MNode.funcDef ⟨"__init__", params, MType.noneTy⟩, true⟩ ∧
        params.map (fun p => p.varName) =
          ((collectAttrsOf exC4).filter (fun a => a.is_in_init)).map
            (fun a => a.name) ∧
        params.map (fun p => p.opt) =
          ((collectAttrsOf exC4).filter (fun a => a.is_in_init)).map
            (fun a => a.has_default) := by
  refine ⟨transformOutD defaultArgs exC4, by rfl, ?_⟩
  exact (C4_init_synthesis_amended defaultArgs exC4
    (transformOutD defaultArgs exC4) (collectAttrsOf exC4)
    (collectNamesOf exC4) (collectDiagsOf exC4) (by rfl) (by decide) (by rfl)
    (by decide)).1 (by decide)

/-! ### Claim C6 -/

/-- The class of C6's counterexample: `x: int = <expr>` (has a default) then
`y` whose annotation has not been resolved yet (type `none`), declared
without a default — an ordering violation and an unresolved type at once. -/
def exC6 : ClassState :=
  ⟨[fieldStmt "x" MExpr.otherExpr 2, fieldStmt "y" MExpr.tempNode 3],
   [("x", mkVar "x" (some intTy)), ("y", mkVar "y" none)],
   [], "m.C6", none, 1, 0⟩

/-- Counterexample to claim C6 as stated: on a class whose collected
attribute list has an unresolved type AND a default-ordering violation, the
transform defers — but the ordering diagnostic has already been emitted
during collection, refuting "without emitting any diagnostic". -/
theorem C6_defer_counterexample :
    ∃ out, transform defaultArgs exC6 = some out ∧
      out.outcome = Outcome.deferredOut ∧
      out.diags = [⟨orderingViolationMsg, 3, 0⟩] :=
  ⟨transformOutD defaultArgs exC6, by rfl, by decide, by decide⟩

/-- Claim C6 (amended): when the transform does not complete (placeholder
encountered, or an attribute's type still unresolved), it synthesizes no
member (every `FuncDef` entry of the resulting symbol table was already
there, unchanged) and writes no metadata; in the placeholder case no
diagnostic is emitted, while in the unresolved-type case the diagnostics
are exactly the ordering diagnostics already emitted by collection (and may
be non-empty). -/
theorem C6_defer_amended (args : DecoratorArgs) (s : ClassState)
    (out : TransformOut) (h : transform args s = some out)
    (hnc : out.outcome ≠ Outcome.completed) :
    out.st.metadata = s.metadata ∧
    (∀ n f pg, assocGet out.st.names n = some ⟨MNode.funcDef f, pg⟩ →
      assocGet s.names n = some ⟨MNode.funcDef f, pg⟩) ∧
    (out.outcome = Outcome.notReady → out.diags = []) ∧
    (out.outcome = Outcome.deferredOut →
      ∃ attrs names1,
        collect_attributes s = CollectRes.ok attrs names1 out.diags ∧
        out.diags = checkDefaultOrdering attrs) := by
  unfold transform at h
  split at h
  · cases h
  · rename_i names1 hcolnr
    injection h with h'
    subst h'
    exact ⟨rfl, (collect_notReady_inv s names1 hcolnr).1,
      fun _ => rfl, fun hdo => nomatch hdo⟩
  · rename_i attrs names1 cdiags hcol
    split at h
    · cases h
    · injection h with h'
      subst h'
      refine ⟨rfl, (collect_ok_inv s attrs names1 cdiags hcol).2.1,
        fun hno => by simp at hno, fun _ => ⟨attrs, names1, hcol,
          (collect_ok_inv s attrs names1 cdiags hcol).2.2.2⟩⟩
    · split at h
      · cases h
      · split at h
        · cases h
        · split at h
          · cases h
          · injection h with h'
            rw [← h'] at hnc
            exact absurd rfl hnc

/-- Witness for the amended C6 at the concrete deferring class. -/
theorem C6_defer_amended_witness :
    ∃ out, transform defaultArgs exC6 = some out ∧
      out.st.metadata = exC6.metadata ∧
      ∃ attrs names1,
        collect_attributes exC6 = CollectRes.ok attrs names1 out.diags ∧
        out.diags = checkDefaultOrdering attrs := by
  refine ⟨transformOutD defaultArgs exC6, by rfl, ?_, ?_⟩
  · exact (C6_defer_amended defaultArgs exC6 (transformOutD defaultArgs exC6)
      (by rfl) (by decide)).1
  · exact (C6_defer_amended defaultArgs exC6 (transformOutD defaultArgs exC6)
      (by rfl) (by decide)).2.2.2 (by decide)

/-! ### Claim C7 -/

/-- The class of C7's counterexample:
`x: InitVar[int] = field(init=False)`. -/
def exC7 : ClassState :=
  ⟨[fieldStmt "x"
      (MExpr.call (some "dataclasses.field") [(some "init", MExpr.boolLit false)])
      2],
   [("x", mkVar "x" (some (MType.initVar intTy)))],
   [], "m.C7", none, 1, 0⟩

/-- Counterexample to claim C7 as stated: an `InitVar` field declared with
`field(init=False)` is (as claimed) removed from the attribute namespace,
but it does NOT appear as a parameter of the synthesized constructor —
refuting the unconditional "yet it still appears as a parameter". -/
theorem C7_initvar_counterexample :
    collectAttrsOf exC7 = [⟨"x", false, true, false, 2, 0⟩] ∧
    ∃ out, transform defaultArgs exC7 = some out ∧
      out.outcome = Outcome.completed ∧
      assocGet out.st.names "x" = none ∧
      assocGet out.st.names "__init__" =
        some ⟨MNode.funcDef ⟨"__init__", [], MType.noneTy⟩, true⟩ :=
  ⟨by decide, transformOutD defaultArgs exC7, by rfl, by decide, by decide,
   by decide⟩

/-- An already-processed ancestor whose only field was a constructor-only
(`InitVar`) field `i`: the field has been removed from its namespace, and is
recoverable only from the generated `__init__`'s parameter list. -/
def ancIV : AncestorInfo :=
  ⟨"m.IVBase",
   [("__init__", ⟨MNode.funcDef ⟨"__init__", [⟨"i", some intTy, false⟩],
      MType.noneTy⟩, true⟩)],
   some ⟨[("i", ⟨"i", true, true, false, 5, 0⟩)], false⟩⟩

/-- A subclass of `ancIV` declaring no fields of its own. -/
def exC7i : ClassState := ⟨[], [], [ancIV], "m.IVSub", none, 1, 0⟩

/-- A class declaring `x: InitVar[int]` whose own symbol table already holds
a previously plugin-generated `__init__` (with a stale parameter list). -/
def exC7p : ClassState :=
  ⟨[fieldStmt "x" MExpr.tempNode 2],
   [("x", mkVar "x" (some (MType.initVar intTy))),
    ("__init__", ⟨MNode.funcDef ⟨"__init__", [⟨"old", some intTy, false⟩],
      MType.noneTy⟩, true⟩)],
   [], "m.C7p", none, 1, 0⟩

/-- Claim C7 (amended): on a completed transform every constructor-only
(`InitVar`) field's name is deleted from the class's attribute namespace,
and — provided the field is actually included in the constructor
(`init` not disabled for it), the decorator's `init` is enabled and no
user-written constructor exists (the class's own `__init__` entry is absent
or itself plugin-generated, matching the line 101 guard) — it appears among
the synthesized constructor's parameters.  This includes a field inherited
by a subclass declaring no fields of its own, recovered from the ancestor's
synthesized constructor (second, concrete conjunct), and a class whose
previously generated constructor is regenerated with the field among its
parameters (third, concrete conjunct). -/
theorem C7_initvar_amended :
    (∀ (args : DecoratorArgs) (s : ClassState) (out : TransformOut)
       (attrs : List DataclassAttribute) (names1 : List (String × STNode))
       (cdiags : List Diagnostic) (a : DataclassAttribute),
      transform args s = some out →
      out.outcome = Outcome.completed →
      collect_attributes s = CollectRes.ok attrs names1 cdiags →
      a ∈ attrs → a.is_init_var = true →
      KeysNodup s.names →
      (∀ b ∈ attrs, b.name ≠ "__init__") →
      (assocGet out.st.names a.name = none ∧
        (a.is_in_init = true → args.init = true →
          (match assocGet names1 "__init__" with
           | none => true
           | some stn => stn.plugin_generated) = true →
          ∃ params,
            assocGet out.st.names "__init__" =
              some ⟨MNode.funcDef ⟨"__init__", params, MType.noneTy⟩, true⟩ ∧
            a.name ∈ params.map (fun p => p.varName)))) ∧
    (∃ out, transform defaultArgs exC7i = some out ∧
      out.outcome = Outcome.completed ∧
      assocGet out.st.names "i" = none ∧
      assocGet out.st.names "__init__" =
        some ⟨MNode.funcDef ⟨"__init__", [⟨"i", some intTy, false⟩],
          MType.noneTy⟩, true⟩) ∧
    (∃ out, transform defaultArgs exC7p = some out ∧
      out.outcome = Outcome.completed ∧
      assocGet out.st.names "x" = none ∧
      assocGet out.st.names "__init__" =
        some ⟨MNode.funcDef ⟨"__init__", [⟨"x", some intTy, false⟩],
          MType.noneTy⟩, true⟩) := by
  refine ⟨?_, ?_, ?_⟩
  · intro args s out attrs names1 cdiags a h hc hcol ha hiv hnd hhyg
    obtain ⟨attrs', names1', cdiags', names2, names6, names7, body',
      hcol', hdef, hinit, hfr, hres, hout⟩ :=
      transform_completed_decomp args s out h hc
    rw [hcol] at hcol'
    injection hcol' with e1 e2 e3
    subst e1; subst e2; subst e3
    have hnd1 : KeysNodup names1 :=
      (collect_ok_inv s attrs names1 cdiags hcol).2.2.1 hnd
    have hnd2 : KeysNodup names2 := initStage_nodup _ _ _ _ _ hinit hnd1
    have hnd5 : KeysNodup (methodStages args s names2).1 := by
      unfold methodStages
      exact orderStage_nodup _ _ _ _ _ _ _
        (eqStage_nodup _ _ _ _ (tvarStage_nodup _ _ _ _ _ hnd2))
    have hnd6 : KeysNodup names6 := freezeStage_nodup _ _ _ _ _ hfr hnd5
    constructor
    · rw [hout]
      exact resetIOV_gone attrs names6 s.body names7 body' hres hnd6 a ha hiv
    · intro hii hinitf husr
      have hcond : initCondB args.init attrs names1 = true := by
        unfold initCondB
        rw [husr, hinitf]
        have : attrs.isEmpty = false := by
          cases attrs with
          | nil => cases ha
          | cons b t => rfl
        rw [this]
        rfl
      unfold initStage at hinit
      rw [hcond, if_pos rfl] at hinit
      cases hargs : attrsToArgs names1 s.mroTail
          (attrs.filter (fun b => b.is_in_init)) with
      | none => rw [hargs] at hinit; cases hinit
      | some params =>
          rw [hargs] at hinit
          injection hinit with h2
          have hshape := attrsToArgs_shape names1 s.mroTail _ params hargs
          refine ⟨params, ?_, ?_⟩
          · rw [hout]
            show assocGet names7 "__init__" = _
            rw [resetIOV_get_ne _ _ _ _ _ hres _ (fun b hb _ => hhyg b hb),
                freezeStage_get_ne _ _ _ _ _ hfr _ hhyg]
            unfold methodStages
            rw [orderStage_get_ne _ _ _ _ _ _ _ _ (by decide),
                eqStage_get_ne _ _ _ _ _ (by decide) (by decide),
                tvarStage_get_ne _ _ _ _ _ _ (by decide), ← h2]
            unfold add_method
            exact assocGet_set_self _ _ _
          · rw [hshape.1]
            exact List.mem_map_of_mem (fun b => b.name)
              (List.mem_filter.2 ⟨ha, hii⟩)
  · exact ⟨transformOutD defaultArgs exC7i, by rfl, by decide, by decide,
      by decide⟩
  · exact ⟨transformOutD defaultArgs exC7p, by rfl, by decide, by decide,
      by decide⟩

/-- Witness for the amended C7: the local-`InitVar` class
`x: InitVar[int]` with default flags. -/
def exC7w : ClassState :=
  ⟨[fieldStmt "x" MExpr.tempNode 2],
   [("x", mkVar "x" (some (MType.initVar intTy)))],
   [], "m.C7w", none, 1, 0⟩

theorem C7_initvar_amended_witness :
    ∃ out, transform defaultArgs exC7w = some out ∧
      assocGet out.st.names "x" = none ∧
      ∃ params,
        assocGet out.st.names "__init__" =
          some ⟨MNode.funcDef ⟨"__init__", params, MType.noneTy⟩, true⟩ ∧
        "x" ∈ params.map (fun p => p.varName) := by
  refine ⟨transformOutD defaultArgs exC7w, by rfl, ?_⟩
  have := C7_initvar_amended.1 defaultArgs exC7w
    (transformOutD defaultArgs exC7w) (collectAttrsOf exC7w)
    (collectNamesOf exC7w) (collectDiagsOf exC7w)
    ⟨"x", true, true, false, 2, 0⟩ (by rfl) (by decide) (by rfl)
    (by decide) (by decide) (by decide) (by decide)
  exact ⟨this.1, this.2 (by decide) (by decide) (by decide)⟩

/-! ### Claim C8 -/

/-- `frozen=true` decorator arguments (other flags at their defaults). -/
def frozenArgs : DecoratorArgs := ⟨true, true, false, true⟩

/-- The class of C8's counterexample: a frozen class whose only field is
`x: InitVar[int]`. -/
def exC8 : ClassState :=
  ⟨[fieldStmt "x" MExpr.tempNode 2],
   [("x", mkVar "x" (some (MType.initVar intTy)))],
   [], "m.C8", none, 1, 0⟩

/-- Counterexample to claim C8 as stated: in a frozen class, a
constructor-only field belongs to the merged field list but is *deleted*
from the symbol table after the transform (`reset_init_only_vars` runs after
`_freeze`), so it is not marked as a read-only property on the class —
refuting "every field in the merged field list ... is marked as a read-only
property on the class after the transform". -/
theorem C8_frozen_counterexample :
    collectAttrsOf exC8 = [⟨"x", true, true, false, 2, 0⟩] ∧
    ∃ out, transform frozenArgs exC8 = some out ∧
      out.outcome = Outcome.completed ∧
      assocGet out.st.names "x" = none :=
  ⟨by decide, transformOutD frozenArgs exC8, by rfl, by decide, by decide⟩

/-- An already-processed non-frozen base class with one field `z`. -/
def ancZ : AncestorInfo :=
  ⟨"m.ZBase",
   [("z", mkVar "z" (some intTy)),
    ("__init__", ⟨MNode.funcDef ⟨"__init__", [⟨"z", some intTy, false⟩],
      MType.noneTy⟩, true⟩)],
   some ⟨[("z", ⟨"z", true, false, false, 7, 0⟩)], false⟩⟩

/-- A frozen subclass of `ancZ` declaring no fields of its own. -/
def exC8i : ClassState := ⟨[], [], [ancZ], "m.ZSub", none, 1, 0⟩

/-- Claim C8 (amended): when `frozen` is enabled, every field of the merged
field list that is not constructor-only — whether declared locally or
inherited — is bound to a read-only-property `Var` in the class's own
symbol table after a completed transform (a constructor-only field is
frozen and then deleted again); the inherited case creates a fresh
symbol-table entry, shown concretely for a field `z` inherited from a
non-frozen base by a subclass with no fields of its own. -/
theorem C8_frozen_amended :
    (∀ (args : DecoratorArgs) (s : ClassState) (out : TransformOut)
       (attrs : List DataclassAttribute) (names1 : List (String × STNode))
       (cdiags : List Diagnostic) (a : DataclassAttribute),
      transform args s = some out →
      out.outcome = Outcome.completed →
      collect_attributes s = CollectRes.ok attrs names1 cdiags →
      args.frozen = true →
      a ∈ attrs → a.is_init_var = false →
      (attrs.map (fun b => b.name)).Nodup →
      ∃ v pg, assocGet out.st.names a.name = some ⟨MNode.var v, pg⟩ ∧
        v.is_property = true) ∧
    (assocGet exC8i.names "z" = none ∧
      ∃ out, transform frozenArgs exC8i = some out ∧
        out.outcome = Outcome.completed ∧
        assocGet out.st.names "z" =
          some ⟨MNode.var ⟨"z", some intTy, false, true⟩, false⟩) := by
  constructor
  · intro args s out attrs names1 cdiags a h hc hcol hfz ha hniv hndA
    obtain ⟨attrs', names1', cdiags', names2, names6, names7, body',
      hcol', hdef, hinit, hfr, hres, hout⟩ :=
      transform_completed_decomp args s out h hc
    rw [hcol] at hcol'
    injection hcol' with e1 e2 e3
    subst e1; subst e2; subst e3
    unfold freezeStage at hfr
    rw [hfz, if_pos rfl] at hfr
    have hprop : PropAt names6 a.name :=
      freezeLoop_property s.mroTail attrs _ names6 hfr a ha
    have hpres : assocGet names7 a.name = assocGet names6 a.name := by
      apply resetIOV_get_ne _ _ _ _ _ hres
      intro b hb hbiv hbn
      have hba : b = a := List.inj_on_of_nodup_map hndA hb ha hbn
      rw [hba] at hbiv
      rw [hniv] at hbiv
      cases hbiv
    obtain ⟨v, pg, hv, hvp⟩ := hprop
    rw [hout]
    refine ⟨v, pg, ?_, hvp⟩
    show assocGet names7 a.name = _
    rw [hpres]
    exact hv
  · exact ⟨by decide, transformOutD frozenArgs exC8i, by rfl, by decide,
      by decide⟩

/-- Witness for the amended C8: a frozen class with one regular field. -/
def exC8w : ClassState :=
  ⟨[fieldStmt "x" MExpr.tempNode 2],
   [("x", mkVar "x" (some intTy))],
   [], "m.C8w", none, 1, 0⟩

theorem C8_frozen_amended_witness :
    ∃ out, transform frozenArgs exC8w = some out ∧
      ∃ v pg, assocGet out.st.names "x" = some ⟨MNode.var v, pg⟩ ∧
        v.is_property = true := by
  refine ⟨transformOutD frozenArgs exC8w, by rfl, ?_⟩
  exact C8_frozen_amended.1 frozenArgs exC8w (transformOutD frozenArgs exC8w)
    (collectAttrsOf exC8w) (collectNamesOf exC8w) (collectDiagsOf exC8w)
    ⟨"x", true, false, false, 2, 0⟩ (by rfl) (by decide) (by rfl) (by rfl)
    (by decide) (by decide) (by decide)


/-! ### General idempotence of a completed transform -/

/-- The member names the synthesis stages can write: the constructor, the
self-type variable, the equality methods and the ordering methods. -/
def genNames : List String :=
  "__init__" :: SELF_TVAR_NAME :: "__eq__" :: "__ne__" :: orderMethodNames

/-- The names of all `NameExpr` assignment targets of a class body (the
names the body scan can look up). -/
def lnamesOf : List Stmt → List String
  | [] => []
  | Stmt.otherStmt :: t => lnamesOf t
  | Stmt.assignment a :: t =>
      match a.lvalue with
      | LValue.nameExpr n _ => n :: lnamesOf t
      | LValue.otherLValue => lnamesOf t

/-- A symbol-table entry that is not an `InitVar`-typed variable. -/
def entryNoIV (stn : STNode) : Bool :=
  match stn.node with
  | MNode.var v => !(isInitVarType v)
  | _ => true

/-- The view of a symbol-table entry that the body scan depends on: the node
with the `is_property` flag of a `Var` erased, plus the generation mark. -/
def projSTN (stn : STNode) : MNode × Bool :=
  (match stn.node with
   | MNode.var v => MNode.var ⟨v.name, v.type, v.is_classvar, false⟩
   | nd => nd,
   stn.plugin_generated)

/-- The stored dataclass attributes of an ancestor (empty if it carries no
`dataclass` metadata). -/
def ancMetaAttrs (anc : AncestorInfo) : List (String × DataclassAttribute) :=
  match anc.metadata with
  | some md => md.attributes
  | none => []

/-- The class states for which re-running the transform is provably
idempotent: no local symbol is declared with an `InitVar` type, no ancestor
stores a constructor-only attribute or an attribute named like a generated
member, and every assignment-target name of the body resolves in the class's
own symbol table and avoids the generated member names. -/
abbrev IdemReady (s : ClassState) : Prop :=
  (∀ p ∈ s.names, entryNoIV p.2 = true) ∧
  (∀ anc ∈ s.mroTail, ∀ q ∈ ancMetaAttrs anc,
     q.2.is_init_var = false ∧ q.2.name ∉ genNames) ∧
  (∀ n ∈ lnamesOf s.body, (assocGet s.names n).isSome = true ∧ n ∉ genNames)

theorem lnamesOf_cons (stm : Stmt) (t : List Stmt) :
    lnamesOf (stm :: t) = lnamesOf [stm] ++ lnamesOf t := by
  cases stm with
  | otherStmt => rfl
  | assignment a =>
      cases hl : a.lvalue with
      | nameExpr n nb => simp [lnamesOf, hl]
      | otherLValue => simp [lnamesOf, hl]

theorem assocGet_mem {α : Type} (l : List (String × α)) (k : String) (v : α)
    (h : assocGet l k = some v) : (k, v) ∈ l := by
  induction l with
  | nil => simp [assocGet] at h
  | cons p t ih =>
      obtain ⟨a, b⟩ := p
      simp only [assocGet] at h
      split at h
      · rename_i hk
        injection h with h'
        subst h'
        subst hk
        exact List.mem_cons_self _ _
      · exact List.mem_cons_of_mem _ (ih h)

theorem stripNames_id (lname : String) (stn : STNode) (v : MVar)
    (names : List (String × STNode)) (hiv : isInitVarType v = false) :
    stripNames lname stn v names = names := by
  unfold stripNames
  split
  · rename_i targ ht
    unfold isInitVarType at hiv
    rw [ht] at hiv
    simp at hiv
  · rfl

theorem not_genNames_spec (n : String) (h : n ∉ genNames) :
    n ≠ "__init__" ∧ n ≠ SELF_TVAR_NAME ∧ n ≠ "__eq__" ∧ n ≠ "__ne__" ∧
      n ∉ orderMethodNames := by
  unfold genNames at h
  simp only [List.mem_cons, not_or] at h
  exact ⟨h.1, h.2.1, h.2.2.1, h.2.2.2.1, h.2.2.2.2⟩

theorem methodStages_get_ne (args : DecoratorArgs) (s : ClassState)
    (names2 : List (String × STNode)) (n : String)
    (h1 : n ≠ SELF_TVAR_NAME) (h2 : n ≠ "__eq__") (h3 : n ≠ "__ne__")
    (h4 : n ∉ orderMethodNames) :
    assocGet (methodStages args s names2).1 n = assocGet names2 n := by
  unfold methodStages
  rw [orderStage_get_ne _ _ _ _ _ _ _ _ h4,
      eqStage_get_ne _ _ _ _ _ h2 h3,
      tvarStage_get_ne _ _ _ _ _ _ h1]

theorem resetIOV_noiv (attrs : List DataclassAttribute)
    (names : List (String × STNode)) (body : List Stmt)
    (h : ∀ a ∈ attrs, a.is_init_var = false) :
    resetInitOnlyVars attrs names body = some (names, body) := by
  induction attrs with
  | nil => rfl
  | cons a t ih =>
      simp only [resetInitOnlyVars]
      rw [if_neg]
      · exact ih (fun b hb => h b (List.mem_cons_of_mem _ hb))
      · rw [h a (List.mem_cons_self a t)]
        simp

theorem scanStep_sim (stm : Stmt) (A B : List (String × STNode))
    (at0 : List DataclassAttribute) (k0 : List String) (st2 : ScanSt)
    (hAiv : ∀ p ∈ A, entryNoIV p.2 = true)
    (hview : ∀ n ∈ lnamesOf [stm],
      (assocGet A n).map projSTN = (assocGet B n).map projSTN)
    (h : scanStep stm ⟨A, at0, k0⟩ = StepRes.next st2) :
    st2.names = A ∧
    scanStep stm ⟨B, at0, k0⟩ = StepRes.next ⟨B, st2.attrs, st2.known⟩ ∧
    ∀ x ∈ st2.attrs, x ∈ at0 ∨
      (x.is_init_var = false ∧ x.name ∈ lnamesOf [stm]) := by
  cases stm with
  | otherStmt =>
      simp only [scanStep] at h
      injection h with h'
      subst h'
      exact ⟨rfl, rfl, fun x hx => Or.inl hx⟩
  | assignment a =>
      simp only [scanStep] at h
      split at h
      · rename_i hns
        injection h with h'
        subst h'
        refine ⟨rfl, ?_, fun x hx => Or.inl hx⟩
        simp only [scanStep]
        rw [if_pos hns]
      · rename_i hns
        have hns' : a.new_style = true := not_not.mp hns
        split at h
        · rename_i heq
          injection h with h'
          subst h'
          refine ⟨rfl, ?_, fun x hx => Or.inl hx⟩
          simp [scanStep, hns', heq]
        · rename_i lname nb heq
          have hmem : lname ∈ lnamesOf [Stmt.assignment a] := by
            simp [lnamesOf, heq]
          have hv := hview lname hmem
          split at h
          · rename_i hA0
            injection h with h'
            subst h'
            rw [hA0] at hv
            have hB0 : assocGet B lname = none := Option.map_eq_none'.mp hv.symm
            refine ⟨rfl, ?_, fun x hx => Or.inl hx⟩
            simp [scanStep, hns', heq, hB0]
          · rename_i stn hA1
            rw [hA1] at hv
            obtain ⟨stnB, hB1, hpr⟩ :
                ∃ stnB, assocGet B lname = some stnB ∧
                  projSTN stnB = projSTN stn := by
              cases hB : assocGet B lname with
              | none => rw [hB] at hv; simp at hv
              | some s' =>
                  rw [hB] at hv
                  simp only [Option.map_some'] at hv
                  injection hv.symm with hv'
                  exact ⟨s', rfl, hv'⟩
            split at h
            · cases h
            · rename_i v hnode
              have hprn : projSTN stn =
                  (MNode.var ⟨v.name, v.type, v.is_classvar, false⟩,
                   stn.plugin_generated) := by
                unfold projSTN
                rw [hnode]
              obtain ⟨w, hnodeB, hwn, hwt, hwc, hwpg⟩ :
                  ∃ w, stnB.node = MNode.var w ∧ w.name = v.name ∧
                    w.type = v.type ∧ w.is_classvar = v.is_classvar ∧
                    stnB.plugin_generated = stn.plugin_generated := by
                rw [hprn] at hpr
                unfold projSTN at hpr
                cases hnB : stnB.node with
                | var w =>
                    rw [hnB] at hpr
                    have h1 := congrArg Prod.fst hpr
                    have h2 := congrArg Prod.snd hpr
                    simp only [] at h1 h2
                    injection h1 with h1'
                    injection h1' with e1 e2 e3 e4
                    exact ⟨w, rfl, e1, e2, e3, h2⟩
                | placeholder => rw [hnB] at hpr; simp at hpr
                | funcDef f => rw [hnB] at hpr; simp at hpr
                | tvarExpr x y => rw [hnB] at hpr; simp at hpr
              split at h
              · rename_i hcv
                injection h with h'
                subst h'
                refine ⟨rfl, ?_, fun x hx => Or.inl hx⟩
                simp [scanStep, hns', heq, hB1, hnodeB, hwc, hcv]
              · rename_i hcv
                split at h
                · cases h
                · rename_i hfc fargs heqc
                  injection h with h'
                  subst h'
                  have hm := assocGet_mem A lname stn hA1
                  have hent := hAiv ⟨lname, stn⟩ hm
                  unfold entryNoIV at hent
                  rw [hnode] at hent
                  have hivf : isInitVarType v = false := by
                    simpa using hent
                  have hivw : isInitVarType w = false := by
                    unfold isInitVarType
                    rw [hwt]
                    unfold isInitVarType at hivf
                    exact hivf
                  refine ⟨?_, ?_, ?_⟩
                  · show stripNames lname stn v A = A
                    exact stripNames_id _ _ _ _ hivf
                  · simp [scanStep, hns', heq, hB1, hnodeB, hwc, hcv, heqc,
                          stripNames_id _ _ _ _ hivw]
                    rw [hivw, hivf]
                  · intro x hx
                    rcases List.mem_append.1 hx with hx | hx
                    · exact Or.inl hx
                    · rcases List.mem_singleton.1 hx with rfl
                      refine Or.inr ⟨hivf, ?_⟩
                      simp [lnamesOf, heq]
            · cases h

theorem scanBody_sim (body : List Stmt) (A B : List (String × STNode)) :
    ∀ (at0 : List DataclassAttribute) (k0 : List String) (st' : ScanSt),
      (∀ p ∈ A, entryNoIV p.2 = true) →
      (∀ n ∈ lnamesOf body,
        (assocGet A n).map projSTN = (assocGet B n).map projSTN) →
      scanBody body ⟨A, at0, k0⟩ = ScanRes.ok st' →
      st'.names = A ∧
      scanBody body ⟨B, at0, k0⟩ = ScanRes.ok ⟨B, st'.attrs, st'.known⟩ ∧
      ∀ x ∈ st'.attrs, x ∈ at0 ∨
        (x.is_init_var = false ∧ x.name ∈ lnamesOf body) := by
  induction body with
  | nil =>
      intro at0 k0 st' hAiv hview h
      simp only [scanBody] at h
      injection h with h'
      subst h'
      exact ⟨rfl, rfl, fun x hx => Or.inl hx⟩
  | cons stm t ih =>
      intro at0 k0 st' hAiv hview h
      cases hstep : scanStep stm ⟨A, at0, k0⟩ with
      | crash =>
          simp only [scanBody, hstep] at h
          cases h
      | notReady st3 =>
          simp only [scanBody, hstep] at h
          cases h
      | next st3 =>
          simp only [scanBody, hstep] at h
          obtain ⟨n2, at2, k2⟩ := st3
          have hs := scanStep_sim stm A B at0 k0 ⟨n2, at2, k2⟩ hAiv
            (fun n hn => hview n (by
              rw [lnamesOf_cons]
              exact List.mem_append_left _ hn)) hstep
          have hn2 : n2 = A := hs.1
          subst hn2
          have ht := ih at2 k2 st' hAiv
            (fun n hn => hview n (by
              rw [lnamesOf_cons]
              exact List.mem_append_right _ hn)) h
          refine ⟨ht.1, ?_, ?_⟩
          · simp only [scanBody, hs.2.1]
            exact ht.2.1
          · intro x hx
            rcases ht.2.2 x hx with hx2 | hx2
            · rcases hs.2.2 x hx2 with hx3 | hx3
              · exact Or.inl hx3
              · refine Or.inr ⟨hx3.1, ?_⟩
                rw [lnamesOf_cons]
                exact List.mem_append_left _ hx3.2
            · refine Or.inr ⟨hx2.1, ?_⟩
              rw [lnamesOf_cons]
              exact List.mem_append_right _ hx2.2

theorem eraseFirst_subset (l : List DataclassAttribute)
    (a x : DataclassAttribute) (hx : x ∈ eraseFirst l a) : x ∈ l := by
  induction l with
  | nil => simp [eraseFirst] at hx
  | cons b t ih =>
      simp only [eraseFirst] at hx
      split at hx
      · exact List.mem_cons_of_mem _ hx
      · rcases List.mem_cons.1 hx with hx | hx
        · exact hx ▸ List.mem_cons_self _ _
        · exact List.mem_cons_of_mem _ (ih hx)

theorem mergeAncAttrs_sim (initmA initmB : Option MFuncDef)
    (md : List (String × DataclassAttribute)) (B : List (String × STNode)) :
    ∀ (A : List (String × STNode)) (at0 : List DataclassAttribute)
      (k0 : List String) (sup : List DataclassAttribute) (st' : ScanSt),
      (∀ q ∈ md, q.2.is_init_var = false) →
      mergeAncAttrs initmA md ⟨A, at0, k0⟩ sup = some st' →
      st'.names = A ∧
      mergeAncAttrs initmB md ⟨B, at0, k0⟩ sup =
        some ⟨B, st'.attrs, st'.known⟩ ∧
      ∀ x ∈ st'.attrs, x ∈ at0 ∨ x ∈ sup ∨ ∃ q ∈ md, q.2 = x := by
  induction md with
  | nil =>
      intro A at0 k0 sup st' hmd h
      simp only [mergeAncAttrs] at h
      injection h with h'
      subst h'
      refine ⟨rfl, rfl, ?_⟩
      intro x hx
      rcases List.mem_append.1 hx with hx | hx
      · exact Or.inr (Or.inl hx)
      · exact Or.inl hx
  | cons q rest ih =>
      obtain ⟨n, data⟩ := q
      intro A at0 k0 sup st' hmd h
      have hd0 : data.is_init_var = false :=
        hmd (n, data) (List.mem_cons_self _ _)
      have hmdr : ∀ p ∈ rest, p.2.is_init_var = false :=
        fun p hp => hmd p (List.mem_cons_of_mem _ hp)
      simp only [mergeAncAttrs] at h
      split at h
      · rename_i hk
        split at h
        · rename_i a ha
          have hih := ih A (eraseFirst at0 a) k0 (sup ++ [a]) st' hmdr h
          have hafil : a ∈ at0.filter (fun b => b.name = n) := by
            rw [ha]
            exact List.mem_singleton_self a
          have ha0 : a ∈ at0 := (List.mem_filter.1 hafil).1
          refine ⟨hih.1, ?_, ?_⟩
          · simp only [mergeAncAttrs]
            rw [if_pos hk, ha]
            exact hih.2.1
          · intro x hx
            rcases hih.2.2 x hx with hx2 | hx2 | hx2
            · exact Or.inl (eraseFirst_subset at0 a x hx2)
            · rcases List.mem_append.1 hx2 with hx3 | hx3
              · exact Or.inr (Or.inl hx3)
              · rcases List.mem_singleton.1 hx3 with rfl
                exact Or.inl ha0
            · obtain ⟨p, hp, hpq⟩ := hx2
              exact Or.inr (Or.inr ⟨p, List.mem_cons_of_mem _ hp, hpq⟩)
        · cases h
      · rename_i hk
        have hmnA : mergeNames initmA data A = A := by
          simp [mergeNames, hd0]
        have hmnB : mergeNames initmB data B = B := by
          simp [mergeNames, hd0]
        rw [hmnA] at h
        have hih := ih A at0 (insertKnown n k0) (sup ++ [data]) st' hmdr h
        refine ⟨hih.1, ?_, ?_⟩
        · simp only [mergeAncAttrs]
          rw [if_neg hk, hmnB]
          exact hih.2.1
        · intro x hx
          rcases hih.2.2 x hx with hx2 | hx2 | hx2
          · exact Or.inl hx2
          · rcases List.mem_append.1 hx2 with hx3 | hx3
            · exact Or.inr (Or.inl hx3)
            · have hxd := List.mem_singleton.1 hx3
              exact Or.inr (Or.inr ⟨(n, data), List.mem_cons_self _ _, hxd.symm⟩)
          · obtain ⟨p, hp, hpq⟩ := hx2
            exact Or.inr (Or.inr ⟨p, List.mem_cons_of_mem _ hp, hpq⟩)

theorem mergeMRO_sim (initmA initmB : Option MFuncDef)
    (ancs : List AncestorInfo) (B : List (String × STNode)) :
    ∀ (A : List (String × STNode)) (at0 : List DataclassAttribute)
      (k0 : List String) (st' : ScanSt),
      (∀ anc ∈ ancs, ∀ q ∈ ancMetaAttrs anc, q.2.is_init_var = false) →
      mergeMRO initmA ancs ⟨A, at0, k0⟩ = some st' →
      st'.names = A ∧
      mergeMRO initmB ancs ⟨B, at0, k0⟩ = some ⟨B, st'.attrs, st'.known⟩ ∧
      ∀ x ∈ st'.attrs, x ∈ at0 ∨
        ∃ anc ∈ ancs, ∃ q ∈ ancMetaAttrs anc, q.2 = x := by
  induction ancs with
  | nil =>
      intro A at0 k0 st' hanc h
      simp only [mergeMRO] at h
      injection h with h'
      subst h'
      exact ⟨rfl, rfl, fun x hx => Or.inl hx⟩
  | cons anc rest ih =>
      intro A at0 k0 st' hanc h
      have hancr : ∀ b ∈ rest, ∀ q ∈ ancMetaAttrs b, q.2.is_init_var = false :=
        fun b hb => hanc b (List.mem_cons_of_mem _ hb)
      simp only [mergeMRO] at h
      split at h
      · rename_i hmd
        have hih := ih A at0 k0 st' hancr h
        refine ⟨hih.1, ?_, ?_⟩
        · simp only [mergeMRO, hmd]
          exact hih.2.1
        · intro x hx
          rcases hih.2.2 x hx with hx2 | hx2
          · exact Or.inl hx2
          · obtain ⟨b, hb, hq⟩ := hx2
            exact Or.inr ⟨b, List.mem_cons_of_mem _ hb, hq⟩
      · rename_i md hmd
        split at h
        · cases h
        · rename_i st2 hma
          obtain ⟨n2, at2, k2⟩ := st2
          have hmam : ancMetaAttrs anc = md.attributes := by
            unfold ancMetaAttrs
            rw [hmd]
          have hms := mergeAncAttrs_sim initmA initmB md.attributes B A at0 k0
            [] ⟨n2, at2, k2⟩ (by
              intro q hq
              exact hanc anc (List.mem_cons_self _ _) q
                (by rw [hmam]; exact hq)) hma
          have hn2 : n2 = A := hms.1
          subst hn2
          have hih := ih _ at2 k2 st' hancr h
          refine ⟨hih.1, ?_, ?_⟩
          · simp only [mergeMRO, hmd]
            rw [hms.2.1]
            exact hih.2.1
          · intro x hx
            rcases hih.2.2 x hx with hx2 | hx2
            · rcases hms.2.2 x hx2 with hx3 | hx3 | hx3
              · exact Or.inl hx3
              · cases hx3
              · obtain ⟨p, hp, hpq⟩ := hx3
                exact Or.inr ⟨anc, List.mem_cons_self _ _, p,
                  by rw [hmam]; exact hp, hpq⟩
            · obtain ⟨b, hb, hq⟩ := hx2
              exact Or.inr ⟨b, List.mem_cons_of_mem _ hb, hq⟩

theorem collect_sim (s s' : ClassState)
    (hbody : s'.body = s.body) (hmro : s'.mroTail = s.mroTail)
    (hAiv : ∀ p ∈ s.names, entryNoIV p.2 = true)
    (hanc : ∀ anc ∈ s.mroTail, ∀ q ∈ ancMetaAttrs anc, q.2.is_init_var = false)
    (hview : ∀ n ∈ lnamesOf s.body,
      (assocGet s.names n).map projSTN = (assocGet s'.names n).map projSTN)
    (attrs : List DataclassAttribute) (names1 : List (String × STNode))
    (cdiags : List Diagnostic)
    (hc : collect_attributes s = CollectRes.ok attrs names1 cdiags) :
    names1 = s.names ∧
    collect_attributes s' = CollectRes.ok attrs s'.names cdiags ∧
    ∀ x ∈ attrs, x.is_init_var = false ∧
      (x.name ∈ lnamesOf s.body ∨
        ∃ anc ∈ s.mroTail, ∃ q ∈ ancMetaAttrs anc, q.2 = x) := by
  unfold collect_attributes at hc
  split at hc
  · cases hc
  · cases hc
  · rename_i st hscan
    split at hc
    · cases hc
    · rename_i st2 hmerge
      injection hc with h1 h2 h3
      subst h1
      subst h2
      subst h3
      obtain ⟨ns, ats, ks⟩ := st
      have hsc := scanBody_sim s.body s.names s'.names [] [] ⟨ns, ats, ks⟩
        hAiv hview hscan
      have hns : ns = s.names := hsc.1
      subst hns
      obtain ⟨n2, at2, k2⟩ := st2
      have hmm := mergeMRO_sim (get_method s.names s.mroTail "__init__")
        (get_method s'.names s.mroTail "__init__") s.mroTail s'.names
        s.names ats ks ⟨n2, at2, k2⟩ hanc hmerge
      have hn2 : n2 = s.names := hmm.1
      subst hn2
      refine ⟨rfl, ?_, ?_⟩
      · unfold collect_attributes
        rw [hbody, hmro]
        simp only [hsc.2.1, hmm.2.1]
      · intro x hx
        rcases hmm.2.2 x hx with hx2 | hx2
        · rcases hsc.2.2 x hx2 with hx3 | hx3
          · cases hx3
          · exact ⟨hx3.1, Or.inl hx3.2⟩
        · obtain ⟨anc, hmem, q, hq, hqx⟩ := hx2
          refine ⟨?_, Or.inr ⟨anc, hmem, q, hq, hqx⟩⟩
          rw [hqx.symm]
          exact hanc anc hmem q hq

theorem freezeLoop_view (mro : List AncestorInfo)
    (attrs : List DataclassAttribute) :
    ∀ (names names' : List (String × STNode)),
      freezeLoop mro attrs names = some names' →
      ∀ n stn, assocGet names n = some stn →
        ∃ stn', assocGet names' n = some stn' ∧ projSTN stn' = projSTN stn := by
  induction attrs with
  | nil =>
      intro names names' h n stn hg
      simp only [freezeLoop] at h
      injection h with h'
      subst h'
      exact ⟨stn, hg, rfl⟩
  | cons a t ih =>
      intro names names' h n stn hg
      simp only [freezeLoop] at h
      split at h
      · rename_i stna hga
        split at h
        · rename_i v hv
          by_cases han : a.name = n
          · subst han
            have hse : stna = stn := by
              have := hga.symm.trans hg
              injection this
            subst hse
            obtain ⟨stn', hst', hpr⟩ := ih _ _ h a.name _
              (assocGet_set_self names a.name
                ⟨MNode.var ⟨v.name, v.type, v.is_classvar, true⟩,
                 stna.plugin_generated⟩)
            refine ⟨stn', hst', ?_⟩
            rw [hpr]
            unfold projSTN
            rw [hv]
          · have hmid : assocGet (assocSet names a.name
                ⟨MNode.var ⟨v.name, v.type, v.is_classvar, true⟩,
                 stna.plugin_generated⟩) n = assocGet names n :=
              assocGet_set_ne _ _ _ _ (fun hh => han hh.symm)
            exact ih _ _ h n stn (by rw [hmid]; exact hg)
        · cases h
      · rename_i hga
        split at h
        · cases h
        · rename_i stn2 hg2
          have han : ¬ a.name = n := by
            intro hh
            rw [hh] at hga
            rw [hga] at hg
            cases hg
          have hmid : assocGet (assocSet names a.name
              ⟨MNode.var ⟨a.name, stnType stn2, false, true⟩, false⟩) n =
              assocGet names n :=
            assocGet_set_ne _ _ _ _ (fun hh => han hh.symm)
          exact ih _ _ h n stn (by rw [hmid]; exact hg)

theorem freezeLoop_typeView (mro : List AncestorInfo)
    (attrs : List DataclassAttribute) :
    ∀ (names names' : List (String × STNode)),
      freezeLoop mro attrs names = some names' →
      ∀ n, (infoGetN names' mro n).map stnType =
        (infoGetN names mro n).map stnType := by
  induction attrs with
  | nil =>
      intro names names' h n
      simp only [freezeLoop] at h
      injection h with h'
      subst h'
      rfl
  | cons a t ih =>
      intro names names' h n
      simp only [freezeLoop] at h
      split at h
      · rename_i stna hga
        split at h
        · rename_i v hv
          rw [ih _ _ h n]
          by_cases han : a.name = n
          · subst han
            unfold infoGetN
            rw [assocGet_set_self, hga]
            obtain ⟨nd, pg⟩ := stna
            simp only [] at hv
            subst hv
            rfl
          · unfold infoGetN
            rw [assocGet_set_ne _ _ _ _ (fun hh => han hh.symm)]
        · cases h
      · rename_i hga
        split at h
        · cases h
        · rename_i stn2 hg2
          rw [ih _ _ h n]
          by_cases han : a.name = n
          · subst han
            unfold infoGetN
            rw [assocGet_set_self, hga]
            have hg2' : ancGet mro a.name = some stn2 := by
              unfold infoGetN at hg2
              rw [hga] at hg2
              exact hg2
            rw [hg2']
            rfl
          · unfold infoGetN
            rw [assocGet_set_ne _ _ _ _ (fun hh => han hh.symm)]

theorem freezeLoop_idem (mro : List AncestorInfo)
    (attrs : List DataclassAttribute) (names : List (String × STNode))
    (h : ∀ a ∈ attrs, PropAt names a.name) :
    freezeLoop mro attrs names = some names := by
  induction attrs with
  | nil => rfl
  | cons a t ih =>
      obtain ⟨v, pg, hv, hvp⟩ := h a (List.mem_cons_self a t)
      obtain ⟨vn, vt, vc, vp⟩ := v
      simp only [] at hvp
      subst hvp
      simp only [freezeLoop, hv]
      rw [assocSet_id names a.name _ hv]
      exact ih (fun b hb => h b (List.mem_cons_of_mem _ hb))

theorem orderLoop_id (mro : List AncestorInfo) (fn : String)
    (ms : List String) (names : List (String × STNode))
    (h : ∀ m ∈ ms, assocGet names m =
      some ⟨MNode.funcDef ⟨m, [cmpArg fn], boolTy⟩, true⟩) :
    (orderLoop mro fn ms names).1 = names := by
  induction ms with
  | nil => rfl
  | cons m rest ih =>
      simp only [orderLoop]
      unfold add_method
      rw [assocSet_id names m _ (h m (List.mem_cons_self m rest))]
      exact ih (fun b hb => h b (List.mem_cons_of_mem _ hb))

theorem to_argument_congr (A B : List (String × STNode))
    (mro : List AncestorInfo) (a : DataclassAttribute)
    (h : (infoGetN A mro a.name).map stnType =
      (infoGetN B mro a.name).map stnType) :
    to_argument A mro a = to_argument B mro a := by
  unfold to_argument
  cases hA : infoGetN A mro a.name with
  | none =>
      rw [hA] at h
      have hB : infoGetN B mro a.name = none := Option.map_eq_none'.mp h.symm
      rw [hB]
  | some stn =>
      rw [hA] at h
      cases hB : infoGetN B mro a.name with
      | none =>
          rw [hB] at h
          simp at h
      | some stn2 =>
          rw [hB] at h
          simp only [Option.map_some'] at h
          injection h with h'
          simp [h']

theorem attrsToArgs_congr (A B : List (String × STNode))
    (mro : List AncestorInfo) (l : List DataclassAttribute)
    (h : ∀ a ∈ l, (infoGetN A mro a.name).map stnType =
      (infoGetN B mro a.name).map stnType) :
    attrsToArgs A mro l = attrsToArgs B mro l := by
  induction l with
  | nil => rfl
  | cons a t ih =>
      simp only [attrsToArgs]
      rw [to_argument_congr A B mro a (h a (List.mem_cons_self a t)),
          ih (fun b hb => h b (List.mem_cons_of_mem _ hb))]

theorem deferCheck_pass_congr (A B : List (String × STNode))
    (mro : List AncestorInfo) (attrs : List DataclassAttribute)
    (h : ∀ a ∈ attrs, (infoGetN A mro a.name).map stnType =
      (infoGetN B mro a.name).map stnType)
    (hp : deferCheck A mro attrs = DeferRes.passC) :
    deferCheck B mro attrs = DeferRes.passC := by
  induction attrs with
  | nil => rfl
  | cons a t ih =>
      simp only [deferCheck] at hp ⊢
      split at hp
      · cases hp
      · rename_i stn hA
        split at hp
        · cases hp
        · rename_i T hT
          have hv := h a (List.mem_cons_self a t)
          rw [hA] at hv
          obtain ⟨stnB, hB, hTeq⟩ :
              ∃ stnB, infoGetN B mro a.name = some stnB ∧
                stnType stnB = stnType stn := by
            cases hB : infoGetN B mro a.name with
            | none =>
                rw [hB] at hv
                simp at hv
            | some s2 =>
                rw [hB] at hv
                simp only [Option.map_some'] at hv
                injection hv.symm with hv'
                exact ⟨s2, rfl, hv'⟩
          simp only [hB, hTeq, hT]
          exact ih (fun b hb => h b (List.mem_cons_of_mem _ hb)) hp

theorem freezeStage_view (frozen : Bool) (mro : List AncestorInfo)
    (attrs : List DataclassAttribute)
    (names names6 : List (String × STNode))
    (h : freezeStage frozen mro attrs names = some names6) :
    ∀ n stn, assocGet names n = some stn →
      ∃ stn', assocGet names6 n = some stn' ∧ projSTN stn' = projSTN stn := by
  unfold freezeStage at h
  split at h
  · exact freezeLoop_view mro attrs names names6 h
  · injection h with h'
    subst h'
    exact fun n stn hg => ⟨stn, hg, rfl⟩

theorem freezeStage_typeView (frozen : Bool) (mro : List AncestorInfo)
    (attrs : List DataclassAttribute)
    (names names6 : List (String × STNode))
    (h : freezeStage frozen mro attrs names = some names6) :
    ∀ n, (infoGetN names6 mro n).map stnType =
      (infoGetN names mro n).map stnType := by
  unfold freezeStage at h
  split at h
  · exact freezeLoop_typeView mro attrs names names6 h
  · injection h with h'
    subst h'
    exact fun n => rfl

/-- Re-assembling a `transform` run from the results of its stages. -/
theorem transform_completed_intro (args : DecoratorArgs) (s : ClassState)
    (attrs : List DataclassAttribute) (names1 : List (String × STNode))
    (cdiags : List Diagnostic) (names2 names6 names7 : List (String × STNode))
    (body' : List Stmt)
    (hc : collect_attributes s = CollectRes.ok attrs names1 cdiags)
    (hd : deferCheck names1 s.mroTail attrs = DeferRes.passC)
    (hi : initStage args.init attrs names1 s.mroTail = some names2)
    (hf : freezeStage args.frozen s.mroTail attrs
      (methodStages args s names2).1 = some names6)
    (hr : resetInitOnlyVars attrs names6 s.body = some (names7, body')) :
    transform args s =
      some ⟨⟨body', names7, s.mroTail, s.fullname,
             some ⟨toOrdDict attrs, args.frozen⟩, s.clsLine, s.clsCol⟩,
            cdiags ++ (methodStages args s names2).2, Outcome.completed⟩ := by
  unfold transform
  simp only [hc, hd, hi, hf, hr]

/-- Completed transforms are idempotent on `IdemReady` states: a second run
completes with the same member table, body and metadata. -/
theorem transform_idempotent (args : DecoratorArgs) (s : ClassState)
    (out1 : TransformOut) (hready : IdemReady s)
    (h1 : transform args s = some out1)
    (hco : out1.outcome = Outcome.completed) :
    ∃ out2, transform args out1.st = some out2 ∧
      out2.st.names = out1.st.names ∧
      out2.st.body = out1.st.body ∧
      out2.st.metadata = out1.st.metadata ∧
      out2.outcome = Outcome.completed := by
  obtain ⟨hAiv, hancH, hbodyH⟩ := hready
  obtain ⟨attrs, names1, cdiags, names2, names6, names7, body',
    hcol, hdef, hinit, hfr, hres, hout⟩ :=
    transform_completed_decomp args s out1 h1 hco
  have hanc : ∀ anc ∈ s.mroTail, ∀ q ∈ ancMetaAttrs anc,
      q.2.is_init_var = false := fun anc ha q hq => (hancH anc ha q hq).1
  have hcs := collect_sim s s rfl rfl hAiv hanc
    (fun n hn => rfl) attrs names1 cdiags hcol
  have hn1 : names1 = s.names := hcs.1
  subst hn1
  have hattr : ∀ a ∈ attrs, a.is_init_var = false ∧ a.name ∉ genNames := by
    intro a ha
    rcases hcs.2.2 a ha with ⟨hiv, hsrc⟩
    refine ⟨hiv, ?_⟩
    rcases hsrc with hsrc | ⟨anc, hmem, q, hq, hqa⟩
    · exact (hbodyH a.name hsrc).2
    · exact hqa ▸ (hancH anc hmem q hq).2
  have hnoiv : ∀ a ∈ attrs, a.is_init_var = false := fun a ha => (hattr a ha).1
  have hnaGen : ∀ m ∈ genNames, ∀ a ∈ attrs, a.name ≠ m :=
    fun m hm a ha hh => (hattr a ha).2 (hh ▸ hm)
  have hmIN : "__init__" ∈ genNames := by decide
  have hmDT : SELF_TVAR_NAME ∈ genNames := by decide
  have hmEQ : "__eq__" ∈ genNames := by decide
  have hmNE : "__ne__" ∈ genNames := by decide
  have hOMsub : ∀ m ∈ orderMethodNames, m ∈ genNames := by decide
  -- the first run's reset step is the identity
  have hresid := resetIOV_noiv attrs names6 s.body hnoiv
  rw [hresid] at hres
  injection hres with hres'
  injection hres' with hres1 hres2
  subst hres1
  subst hres2
  subst hout
  -- the frozen symbol table agrees with the original on every body name
  have hview6 : ∀ n ∈ lnamesOf s.body,
      (assocGet s.names n).map projSTN = (assocGet names6 n).map projSTN := by
    intro n hn
    obtain ⟨hsome, hngen⟩ := hbodyH n hn
    obtain ⟨hni, hnt, hne, hnn, hno⟩ := not_genNames_spec n hngen
    obtain ⟨stn, hstn⟩ := Option.isSome_iff_exists.mp hsome
    have h5 : assocGet (methodStages args s names2).1 n = some stn := by
      rw [methodStages_get_ne args s names2 n hnt hne hnn hno,
          initStage_get_ne _ _ _ _ _ hinit n hni]
      exact hstn
    obtain ⟨stn', h6, hproj⟩ := freezeStage_view _ _ _ _ _ hfr n stn h5
    rw [hstn, h6]
    simp only [Option.map_some']
    rw [hproj]
  -- types along the MRO are preserved at non-generated names
  have htype : ∀ n, n ∉ genNames →
      (infoGetN names6 s.mroTail n).map stnType =
      (infoGetN s.names s.mroTail n).map stnType := by
    intro n hngen
    obtain ⟨hni, hnt, hne, hnn, hno⟩ := not_genNames_spec n hngen
    rw [freezeStage_typeView _ _ _ _ _ hfr n]
    rw [infoGetN_congr (methodStages args s names2).1 s.names s.mroTail n
      (by rw [methodStages_get_ne args s names2 n hnt hne hnn hno,
              initStage_get_ne _ _ _ _ _ hinit n hni])]
  have htypeAttrs : ∀ a ∈ attrs,
      (infoGetN names6 s.mroTail a.name).map stnType =
      (infoGetN s.names s.mroTail a.name).map stnType :=
    fun a ha => htype a.name (hattr a ha).2
  -- the second run passes the readiness check
  have hdef2 : deferCheck names6 s.mroTail attrs = DeferRes.passC :=
    deferCheck_pass_congr s.names names6 s.mroTail attrs
      (fun a ha => (htypeAttrs a ha).symm) hdef
  -- the `__init__` entry survives the later stages untouched
  have hg6i : assocGet names6 "__init__" = assocGet names2 "__init__" := by
    rw [freezeStage_get_ne _ _ _ _ _ hfr _ (hnaGen _ hmIN),
        methodStages_get_ne args s names2 _ (by decide) (by decide) (by decide)
          (by decide)]
  -- the second run's `__init__` stage leaves the table unchanged
  have hinit2 : initStage args.init attrs names6 s.mroTail = some names6 := by
    by_cases hcond : initCondB args.init attrs s.names = true
    · have hinit' := hinit
      unfold initStage at hinit'
      rw [if_pos hcond] at hinit'
      split at hinit'
      · cases hinit'
      · rename_i params hpar
        injection hinit' with hn2
        have hent2 : assocGet names2 "__init__" =
            some ⟨MNode.funcDef ⟨"__init__", params, MType.noneTy⟩, true⟩ := by
          rw [hn2.symm]
          unfold add_method
          exact assocGet_set_self _ _ _
        have hent6 : assocGet names6 "__init__" =
            some ⟨MNode.funcDef ⟨"__init__", params, MType.noneTy⟩, true⟩ := by
          rw [hg6i]
          exact hent2
        have hcond6 : initCondB args.init attrs names6 = true := by
          unfold initCondB at hcond ⊢
          rw [hent6]
          simp only [Bool.and_eq_true] at hcond ⊢
          exact ⟨⟨hcond.1.1, trivial⟩, hcond.2⟩
        have hpar6 : attrsToArgs names6 s.mroTail
            (attrs.filter (fun a => a.is_in_init)) = some params := by
          rw [attrsToArgs_congr names6 s.names s.mroTail _
            (fun a ha => htypeAttrs a (List.mem_filter.1 ha).1)]
          exact hpar
        unfold initStage
        rw [if_pos hcond6]
        simp only [hpar6]
        unfold add_method
        rw [assocSet_id names6 "__init__" _ hent6]
    · have hinit' := hinit
      unfold initStage at hinit'
      rw [if_neg hcond] at hinit'
      injection hinit' with hn2
      have hcond6 : ¬ initCondB args.init attrs names6 = true := by
        intro hc6
        apply hcond
        unfold initCondB at hc6 ⊢
        simp only [Bool.and_eq_true] at hc6 ⊢
        refine ⟨⟨hc6.1.1, ?_⟩, hc6.2⟩
        have hgg : assocGet names6 "__init__" = assocGet s.names "__init__" := by
          rw [hg6i, hn2.symm]
        rw [hgg.symm]
        exact hc6.1.2
      unfold initStage
      rw [if_neg hcond6]
  -- the second run's type-variable stage is the identity
  have htv : tvarStage args.eq args.order names6 s.mroTail s.fullname =
      names6 := by
    by_cases hc1 : (args.eq = true ∧
        infoGetN names2 s.mroTail "__eq__" = none) ∨ args.order = true
    · have hdt5 : assocGet (methodStages args s names2).1 SELF_TVAR_NAME =
          some ⟨MNode.tvarExpr SELF_TVAR_NAME
            (s.fullname ++ "." ++ SELF_TVAR_NAME), false⟩ := by
        show assocGet (orderStage args.order args.eq
          (eqStage args.eq
            (tvarStage args.eq args.order names2 s.mroTail s.fullname)
            s.mroTail s.fullname)
          s.mroTail s.fullname s.clsLine s.clsCol).1 SELF_TVAR_NAME = _
        rw [orderStage_get_ne _ _ _ _ _ _ _ _ (by decide),
            eqStage_get_ne _ _ _ _ _ (by decide) (by decide)]
        exact tvarStage_sets args.eq args.order names2 s.mroTail s.fullname hc1
      have hdt6 : assocGet names6 SELF_TVAR_NAME =
          some ⟨MNode.tvarExpr SELF_TVAR_NAME
            (s.fullname ++ "." ++ SELF_TVAR_NAME), false⟩ := by
        rw [freezeStage_get_ne _ _ _ _ _ hfr _ (hnaGen _ hmDT)]
        exact hdt5
      unfold tvarStage
      split
      · exact assocSet_id _ _ _ hdt6
      · rfl
    · rw [not_or] at hc1
      obtain ⟨hc1a, hc1o⟩ := hc1
      have h3 : tvarStage args.eq args.order names2 s.mroTail s.fullname =
          names2 := by
        unfold tvarStage
        rw [if_neg (not_or.mpr ⟨hc1a, hc1o⟩)]
      have h5 : (methodStages args s names2).1 = names2 := by
        show (orderStage args.order args.eq
          (eqStage args.eq
            (tvarStage args.eq args.order names2 s.mroTail s.fullname)
            s.mroTail s.fullname)
          s.mroTail s.fullname s.clsLine s.clsCol).1 = names2
        rw [h3]
        unfold eqStage
        rw [if_neg hc1a]
        unfold orderStage
        rw [if_neg hc1o]
      have hgeq : assocGet names6 "__eq__" = assocGet names2 "__eq__" := by
        rw [freezeStage_get_ne _ _ _ _ _ hfr _ (hnaGen _ hmEQ), h5]
      unfold tvarStage
      rw [if_neg]
      rw [not_or]
      refine ⟨?_, hc1o⟩
      intro hcc
      apply hc1a
      refine ⟨hcc.1, ?_⟩
      rw [(infoGetN_congr names6 names2 s.mroTail "__eq__" hgeq).symm]
      exact hcc.2
  -- the second run's equality stage is the identity
  have heq2x : eqStage args.eq names6 s.mroTail s.fullname = names6 := by
    by_cases hce : args.eq = true ∧
        infoGetN (tvarStage args.eq args.order names2 s.mroTail s.fullname)
          s.mroTail "__eq__" = none
    · have h4eq : assocGet (eqStage args.eq
          (tvarStage args.eq args.order names2 s.mroTail s.fullname)
          s.mroTail s.fullname) "__eq__" =
          some ⟨MNode.funcDef ⟨"__eq__", [cmpArg s.fullname], boolTy⟩,
                true⟩ := by
        unfold eqStage
        rw [if_pos hce]
        unfold add_method
        rw [assocGet_set_ne _ _ _ _ (by decide)]
        exact assocGet_set_self _ _ _
      have h6eq : assocGet names6 "__eq__" =
          some ⟨MNode.funcDef ⟨"__eq__", [cmpArg s.fullname], boolTy⟩,
                true⟩ := by
        rw [freezeStage_get_ne _ _ _ _ _ hfr _ (hnaGen _ hmEQ)]
        show assocGet (orderStage args.order args.eq
          (eqStage args.eq
            (tvarStage args.eq args.order names2 s.mroTail s.fullname)
            s.mroTail s.fullname)
          s.mroTail s.fullname s.clsLine s.clsCol).1 "__eq__" = _
        rw [orderStage_get_ne _ _ _ _ _ _ _ _ (by decide)]
        exact h4eq
      unfold eqStage
      rw [if_neg]
      intro hcc
      have hbad := hcc.2
      unfold infoGetN at hbad
      rw [h6eq] at hbad
      cases hbad
    · have h4 : eqStage args.eq
          (tvarStage args.eq args.order names2 s.mroTail s.fullname)
          s.mroTail s.fullname =
          tvarStage args.eq args.order names2 s.mroTail s.fullname := by
        unfold eqStage
        rw [if_neg hce]
      have hgeq6 : assocGet names6 "__eq__" =
          assocGet (tvarStage args.eq args.order names2 s.mroTail s.fullname)
            "__eq__" := by
        rw [freezeStage_get_ne _ _ _ _ _ hfr _ (hnaGen _ hmEQ)]
        show assocGet (orderStage args.order args.eq
          (eqStage args.eq
            (tvarStage args.eq args.order names2 s.mroTail s.fullname)
            s.mroTail s.fullname)
          s.mroTail s.fullname s.clsLine s.clsCol).1 "__eq__" = _
        rw [orderStage_get_ne _ _ _ _ _ _ _ _ (by decide), h4]
      unfold eqStage
      rw [if_neg]
      intro hcc
      apply hce
      refine ⟨hcc.1, ?_⟩
      rw [(infoGetN_congr names6
        (tvarStage args.eq args.order names2 s.mroTail s.fullname)
        s.mroTail "__eq__" hgeq6).symm]
      exact hcc.2
  -- the second run's ordering stage is the identity
  have hor2 : (orderStage args.order args.eq names6 s.mroTail s.fullname
      s.clsLine s.clsCol).1 = names6 := by
    by_cases ho : args.order = true
    · have hadds := orderLoop_adds s.mroTail s.fullname orderMethodNames
        (eqStage args.eq
          (tvarStage args.eq args.order names2 s.mroTail s.fullname)
          s.mroTail s.fullname) (by decide)
      have h5o : (methodStages args s names2).1 =
          (orderLoop s.mroTail s.fullname orderMethodNames
            (eqStage args.eq
              (tvarStage args.eq args.order names2 s.mroTail s.fullname)
              s.mroTail s.fullname)).1 := by
        show (orderStage args.order args.eq
          (eqStage args.eq
            (tvarStage args.eq args.order names2 s.mroTail s.fullname)
            s.mroTail s.fullname)
          s.mroTail s.fullname s.clsLine s.clsCol).1 = _
        unfold orderStage
        rw [if_pos ho]
      have hm6 : ∀ m ∈ orderMethodNames, assocGet names6 m =
          some ⟨MNode.funcDef ⟨m, [cmpArg s.fullname], boolTy⟩, true⟩ := by
        intro m hm
        rw [freezeStage_get_ne _ _ _ _ _ hfr _ (hnaGen _ (hOMsub m hm)), h5o]
        exact hadds m hm
      unfold orderStage
      rw [if_pos ho]
      exact orderLoop_id _ _ _ _ hm6
    · unfold orderStage
      rw [if_neg ho]
  -- the second run's freeze stage is the identity
  have hfz2 : freezeStage args.frozen s.mroTail attrs names6 =
      some names6 := by
    unfold freezeStage
    by_cases hfz : args.frozen = true
    · rw [if_pos hfz]
      have hfr' := hfr
      unfold freezeStage at hfr'
      rw [if_pos hfz] at hfr'
      exact freezeLoop_idem s.mroTail attrs names6
        (freezeLoop_property s.mroTail attrs _ names6 hfr')
    · rw [if_neg hfz]
  -- the second run's collection reproduces the first run's result
  have hc2 := collect_sim s
    ⟨s.body, names6, s.mroTail, s.fullname,
     some ⟨toOrdDict attrs, args.frozen⟩, s.clsLine, s.clsCol⟩
    rfl rfl hAiv hanc hview6 attrs s.names cdiags hcol
  have hc2' : collect_attributes
      ⟨s.body, names6, s.mroTail, s.fullname,
       some ⟨toOrdDict attrs, args.frozen⟩, s.clsLine, s.clsCol⟩ =
      CollectRes.ok attrs names6 cdiags := hc2.2.1
  have hms2 : (methodStages args
      ⟨s.body, names6, s.mroTail, s.fullname,
       some ⟨toOrdDict attrs, args.frozen⟩, s.clsLine, s.clsCol⟩ names6).1 =
      names6 := by
    show (orderStage args.order args.eq
      (eqStage args.eq
        (tvarStage args.eq args.order names6 s.mroTail s.fullname)
        s.mroTail s.fullname)
      s.mroTail s.fullname s.clsLine s.clsCol).1 = names6
    rw [htv, heq2x]
    exact hor2
  have hf2 : freezeStage args.frozen s.mroTail attrs
      (methodStages args
        ⟨s.body, names6, s.mroTail, s.fullname,
         some ⟨toOrdDict attrs, args.frozen⟩, s.clsLine, s.clsCol⟩
        names6).1 = some names6 := by
    rw [hms2]
    exact hfz2
  have hrs2 := resetIOV_noiv attrs names6 s.body hnoiv
  exact ⟨_, transform_completed_intro args
    ⟨s.body, names6, s.mroTail, s.fullname,
     some ⟨toOrdDict attrs, args.frozen⟩, s.clsLine, s.clsCol⟩
    attrs names6 cdiags names6 names6 names6 s.body
    hc2' hdef2 hinit2 hf2 hrs2, rfl, rfl, rfl, rfl⟩

/-! ### Claim C2 -/

/-- The class of C2's counterexample: one local `x: InitVar[int]` field. -/
def exC2 : ClassState :=
  ⟨[fieldStmt "x" MExpr.tempNode 2],
   [("x", mkVar "x" (some (MType.initVar intTy)))],
   [], "m.C2", none, 1, 0⟩

/-- Counterexample to claim C2 as stated: with a local constructor-only
(`InitVar`) field, the first run deletes the field's symbol, so the second
run collects nothing — the persisted metadata record of the second run loses
the field (the list shrinks), so running twice is NOT identical to running
once.  The member table itself is unchanged: the empty collected list fails
the `and attributes` part of the generation guard (line 102), so the stale
generated constructor keeps its `x` parameter. -/
theorem C2_idempotence_counterexample :
    ∃ out1 out2,
      transform defaultArgs exC2 = some out1 ∧
      transform defaultArgs out1.st = some out2 ∧
      out1.st.metadata =
        some ⟨[("x", ⟨"x", true, true, false, 2, 0⟩)], false⟩ ∧
      out2.st.metadata = some ⟨[], false⟩ ∧
      out2.st.metadata ≠ out1.st.metadata ∧
      out2.st.names = out1.st.names ∧
      assocGet out2.st.names "__init__" =
        some ⟨MNode.funcDef ⟨"__init__", [⟨"x", some intTy, false⟩],
          MType.noneTy⟩, true⟩ :=
  ⟨transformOutD defaultArgs exC2,
   transformOutD defaultArgs (transformOutD defaultArgs exC2).st,
   by rfl, by rfl, by decide, by decide, by decide, by decide, by decide⟩

/-- Whether running the transform twice from `s` completes both times with
an identical member table and an identical persisted metadata record. -/
def doubleRunStable (args : DecoratorArgs) (s : ClassState) : Bool :=
  match transform args s with
  | none => false
  | some out1 =>
      match transform args out1.st with
      | none => false
      | some out2 =>
          decide (out2.st.names = out1.st.names) &&
            decide (out2.st.metadata = out1.st.metadata)

/-- The parameterised family of classes for the amended C2: a base class
with fields `[a, b]`, a subclass overriding `b` (with or without a default)
and declaring `x` through a `field(init=..., default?...)` call — no local
constructor-only fields. -/
def famC2 (hd1 ii2 hd2 : Bool) : ClassState :=
  ⟨[fieldStmt "b" (if hd1 then MExpr.otherExpr else MExpr.tempNode) 2,
    fieldStmt "x"
      (MExpr.call (some "dataclasses.field")
        ((some "init", MExpr.boolLit ii2) ::
          (if hd2 then [(some "default", MExpr.otherExpr)] else []))) 3],
   [("b", mkVar "b" (some intTy)), ("x", mkVar "x" (some intTy))],
   [ancBase], "m.C2f", none, 1, 0⟩

/-- Claim C2 (amended): running the transform twice in sequence yields an
identical member table, body and persisted metadata record as running it
once, provided the class has no constructor-only (`InitVar`) field: proved
in general for every `IdemReady` state (no local or inherited `InitVar`
field, fully analysed body, field and body names distinct from the generated
member names) whose first run completes, for the inheritance-and-override
family `famC2` under all 16 decorator-flag combinations and all
default/init-flag shapes of its local fields, and for a subclass inheriting
a constructor-only field from an already-processed ancestor (`exC7i`) under
all flag combinations; a *local* constructor-only field falsifies the claim
as stated (the metadata field list shrinks, it never grows). -/
theorem C2_idempotence_amended :
    (∀ (args : DecoratorArgs) (s : ClassState) (out1 : TransformOut),
      IdemReady s → transform args s = some out1 →
      out1.outcome = Outcome.completed →
      ∃ out2, transform args out1.st = some out2 ∧
        out2.st.names = out1.st.names ∧
        out2.st.body = out1.st.body ∧
        out2.st.metadata = out1.st.metadata ∧
        out2.outcome = Outcome.completed) ∧
    (∀ i e o f hd1 ii2 hd2 : Bool,
      doubleRunStable ⟨i, e, o, f⟩ (famC2 hd1 ii2 hd2) = true) ∧
    (∀ i e o f : Bool, doubleRunStable ⟨i, e, o, f⟩ exC7i = true) := by
  refine ⟨transform_idempotent, ?_, ?_⟩
  · intro i e o f hd1 ii2 hd2
    cases i <;> cases e <;> cases o <;> cases f <;> cases hd1 <;> cases ii2
      <;> cases hd2 <;> decide
  · intro i e o f
    cases i <;> cases e <;> cases o <;> cases f <;> decide

/-- Witness class for the amended C2: one plain `x: int` field, no
constructor-only fields. -/
def exC2g : ClassState :=
  ⟨[fieldStmt "x" MExpr.tempNode 2],
   [("x", mkVar "x" (some intTy))],
   [], "m.C2g", none, 1, 0⟩

theorem C2_idempotence_amended_witness :
    IdemReady exC2g ∧
    ∃ out2,
      transform defaultArgs (transformOutD defaultArgs exC2g).st = some out2 ∧
      out2.st.names = (transformOutD defaultArgs exC2g).st.names ∧
      out2.st.body = (transformOutD defaultArgs exC2g).st.body ∧
      out2.st.metadata = (transformOutD defaultArgs exC2g).st.metadata ∧
      out2.outcome = Outcome.completed :=
  ⟨by decide,
   C2_idempotence_amended.1 defaultArgs exC2g
     (transformOutD defaultArgs exC2g) (by decide) (by rfl) (by rfl)⟩

end Dataclasses
